import Mathlib

/-!
# Verification of the adaptive-granularity knapsack optimizer (`optimized.py`)

This file gives a shallow embedding of the core of `optimized.py`:
the pruning helpers (`prune_over_budget`, `dedupe_same_cost_keep_best_rate`,
`prune_exact`), the per-granularity DP worker (`_dp_for_step`) and the
aggregating driver (`knapsack_dp_auto`).  Machine floats are modelled as
exact rationals, Python `round` as round-half-to-even, Python integer `//`
as natural-number division (all quantities involved are non-negative on
the inputs the claims quantify over).  The per-worker wall-clock guard and
the global time limit are modelled by a timeout mask `tm : ℕ → Bool`
telling which granularity steps fail to report a result; the arrival order
of worker results is modelled explicitly as a list fed to the aggregation
fold, which is studied separately as `aggregate`.
-/

/-- `MIN_STEP_CENTS` from the source configuration block. -/
def MIN_STEP_CENTS : ℕ := 100

/-- `MAX_STEP_CENTS` from the source configuration block. -/
def MAX_STEP_CENTS : ℕ := 2000

/-- An option record `(name, cost, rate)` as produced by the normalizer. -/
abbrev Act : Type := String × ℚ × ℚ

/-- The greedy-fill epsilon `1e-9` used by `_dp_for_step`. -/
def eps : ℚ := 1 / 1000000000

/-- Python `round` on an exact value: round half to even (banker's rounding). -/
def roundHalfEven (q : ℚ) : ℤ :=
  if q - ⌊q⌋ < 1 / 2 then ⌊q⌋
  else if (1 : ℚ) / 2 < q - ⌊q⌋ then ⌊q⌋ + 1
  else if ⌊q⌋ % 2 = 0 then ⌊q⌋ else ⌊q⌋ + 1

/-- `int(round(c * 100))`: a cost in euros converted to minor units (cents).
All costs the claims quantify over are positive, so the `toNat` clamp is
never active there. -/
def toCents (c : ℚ) : ℕ := (roundHalfEven (c * 100)).toNat

/-- `prune_over_budget`: drop options whose (real) cost exceeds the budget. -/
def prune_over_budget (actions : List Act) (budget : ℚ) : List Act :=
  actions.filter (fun a => a.2.1 ≤ budget)

/-- Insertion into the `by_cost` dictionary of
`dedupe_same_cost_keep_best_rate`: Python dicts keep the insertion position
of a key when its value is replaced, and the value is replaced only when
the new rate is strictly larger. -/
def dedupeInsert : List (ℕ × Act) → ℕ → Act → List (ℕ × Act)
  | [], k, a => [(k, a)]
  | (k', a') :: t, k, a =>
    if k' = k then (if a'.2.2 < a.2.2 then (k', a) else (k', a')) :: t
    else (k', a') :: dedupeInsert t k a

/-- `dedupe_same_cost_keep_best_rate`: deduplicate on the cent-rounded cost,
keeping the best rate. -/
def dedupe_same_cost_keep_best_rate (actions : List Act) : List Act :=
  (actions.foldl (fun acc a => dedupeInsert acc (toCents a.2.1) a) []).map (fun p => p.2)

/-- `prune_exact`: budget pruning followed by cost deduplication. -/
def prune_exact (actions : List Act) (budget : ℚ) : List Act :=
  dedupe_same_cost_keep_best_rate (prune_over_budget actions budget)

/-- The quantized cost `(c + step - 1) // step` of a cent cost `c`. -/
def quantCost (c step : ℕ) : ℕ := (c + step - 1) / step

/-- One cell of the in-place descending DP update of `_dp_for_step`.
Iterating `w` downward means cell `w` reads the not-yet-updated value at
`w - cu`, so the whole pass is the pointwise map of this function over the
pre-pass table. -/
def dpCell (cu : ℕ) (p : ℚ) (best : List ℚ) (w : ℕ) : ℚ :=
  if cu ≤ w then
    if 0 ≤ best.getD (w - cu) (-1) ∧ best.getD w (-1) < best.getD (w - cu) (-1) + p
    then best.getD (w - cu) (-1) + p
    else best.getD w (-1)
  else best.getD w (-1)

/-- The parent-pointer cell update matching `dpCell`. -/
def parentCell (cu : ℕ) (p : ℚ) (best : List ℚ) (par : List (Option (ℕ × ℕ)))
    (idx w : ℕ) : Option (ℕ × ℕ) :=
  if cu ≤ w then
    if 0 ≤ best.getD (w - cu) (-1) ∧ best.getD w (-1) < best.getD (w - cu) (-1) + p
    then some (w - cu, idx)
    else par.getD w none
  else par.getD w none

/-- The DP table of `_dp_for_step`: `best` holds `-1` as the unreachable
sentinel, `parent` the transition that last improved each cell. -/
structure DPState where
  best : List ℚ
  parent : List (Option (ℕ × ℕ))
deriving Repr, DecidableEq

/-- `best = [-1.0] * (B + 1)` with `best[0] = 0.0`, `parent = [None] * (B + 1)`. -/
def dpInit (B : ℕ) : DPState :=
  ⟨(List.range (B + 1)).map (fun w => if w = 0 then (0 : ℚ) else -1),
   List.replicate (B + 1) none⟩

/-- One item's pass over the table (the inner `for w in range(B, cu-1, -1)`). -/
def dpRound (B idx cu : ℕ) (p : ℚ) (st : DPState) : DPState :=
  ⟨(List.range (B + 1)).map (dpCell cu p st.best),
   (List.range (B + 1)).map (parentCell cu p st.best st.parent idx)⟩

/-- The filling loop over all items, carrying the enumeration index. -/
def dpFillAux (B : ℕ) : ℕ → List ℕ → List ℚ → DPState → DPState
  | _, [], _, st => st
  | _, _ :: _, [], st => st
  | idx, cu :: cus, p :: ps, st => dpFillAux B (idx + 1) cus ps (dpRound B idx cu p st)

/-- The DP table after the filling loop of `_dp_for_step`. -/
def dpFill (cus : List ℕ) (ps : List ℚ) (B : ℕ) : DPState :=
  dpFillAux B 0 cus ps (dpInit B)

/-- `w* = max(range(B + 1), key=lambda w: (best[w], w))`. -/
def wStar (best : List ℚ) (B : ℕ) : ℕ :=
  (List.range (B + 1)).foldl
    (fun acc w =>
      if best.getD acc (-1) < best.getD w (-1) ∨
          (best.getD acc (-1) = best.getD w (-1) ∧ acc < w) then w
      else acc) 0

/-- Reconstruction of the chosen index chain by following parent pointers; a
pointer with `prev_w = w` stops the walk (the defensive `break`).  The walk
strictly decreases `w`, so running it with `fuel = w` (see `reconstruct`)
is exact; the fuel only makes the recursion structural. -/
def reconAux (par : List (Option (ℕ × ℕ))) : ℕ → ℕ → List ℕ
  | 0, _ => []
  | _ + 1, 0 => []
  | fuel + 1, w + 1 =>
    match par.getD (w + 1) none with
    | none => []
    | some (pw, i) => if pw ≤ w then i :: reconAux par fuel pw else []

/-- The parent-chain walk of `_dp_for_step` starting at `w`. -/
def reconstruct (par : List (Option (ℕ × ℕ))) (w : ℕ) : List ℕ := reconAux par w w

/-- A completed worker result `(chosen, total_cost, total_profit, meta.step)`;
the `algo` component of `meta` is the constant string `"dp"` and is omitted. -/
structure WRes where
  chosen : List Act
  cost : ℚ
  profit : ℚ
  step : ℕ
deriving Repr, DecidableEq

/-- State of the greedy residual fill. -/
structure GreedyState where
  chosen : List Act
  cost : ℚ
  profit : ℚ
  stopped : Bool
deriving Repr, DecidableEq

/-- `y` sorts weakly before `x` under the key `(-rate, cost)`. -/
def greedyKeyLe (y x : Act) : Bool :=
  x.2.2 < y.2.2 ∨ (y.2.2 = x.2.2 ∧ y.2.1 ≤ x.2.1)

/-- Stable insertion for the greedy sort: `x` goes after every element that
sorts weakly before it, matching Python's stable `list.sort`. -/
def greedyInsert (x : ℕ × Act) : List (ℕ × Act) → List (ℕ × Act)
  | [] => [x]
  | y :: ys => if greedyKeyLe y.2 x.2 then y :: greedyInsert x ys else x :: y :: ys

/-- `remaining.sort(key=lambda t: (-t[1][2], t[1][1]))` (stable). -/
def greedySort (l : List (ℕ × Act)) : List (ℕ × Act) :=
  l.foldl (fun acc x => greedyInsert x acc) []

/-- One iteration of the greedy residual-fill loop, with the early `break`
modelled by the `stopped` flag. -/
def greedyStep (budget : ℚ) (st : GreedyState) (x : ℕ × Act) : GreedyState :=
  if st.stopped then st
  else
    let c := x.2.2.1
    let r := x.2.2.2
    if c ≤ (budget - st.cost) + eps then
      let cost' := st.cost + c
      ⟨st.chosen ++ [x.2], cost', st.profit + c * r, decide (budget - cost' ≤ eps)⟩
    else st

/-- `costs_cents` of an option list. -/
def costsCents (actions : List Act) : List ℕ := actions.map (fun a => toCents a.2.1)

/-- `costs_u`, the per-option quantized costs of `_dp_for_step`. -/
def workerCus (actions : List Act) (step : ℕ) : List ℕ :=
  (costsCents actions).map (fun c => quantCost c step)

/-- `profits_eur`, the per-option profits `cost * rate` of `_dp_for_step`. -/
def workerProfits (actions : List Act) : List ℚ :=
  actions.map (fun a => a.2.1 * a.2.2)

/-- `budget_cents = int(round(budget_eur * 100))`. -/
def budgetCents (budget : ℚ) : ℕ := (roundHalfEven (budget * 100)).toNat

/-- `B = budget_cents // step`, the quantized budget. -/
def budgetUnits (budget : ℚ) (step : ℕ) : ℕ := budgetCents budget / step

/-- The `best` table of `_dp_for_step` after the filling loop. -/
def dpBestTable (actions : List Act) (budget : ℚ) (step : ℕ) : List ℚ :=
  (dpFill (workerCus actions step) (workerProfits actions) (budgetUnits budget step)).best

/-- `_dp_for_step` with the internal wall-clock guard disregarded (a tripped
guard is modelled by the timeout mask at the aggregation layer); `None` on
`max_profit < 0` is kept even though `best[0] = 0` makes it unreachable. -/
def dp_for_step (actions : List Act) (budget : ℚ) (step : ℕ) : Option WRes :=
  let B := budgetUnits budget step
  let st := dpFill (workerCus actions step) (workerProfits actions) B
  let w := wStar st.best B
  let maxProfit := st.best.getD w (-1)
  if maxProfit < 0 then none
  else
    let chain := reconstruct st.parent w
    let chosen0 := ((List.range actions.length).filter (fun i => i ∈ chain)).map
      (fun i => actions.getD i ("", 0, 0))
    let cost0 := (chosen0.map (fun a => a.2.1)).sum
    let rem : List (ℕ × Act) :=
      ((List.range actions.length).filter
        (fun i => i ∉ chain ∧ 0 < (actions.getD i ("", 0, 0)).2.1 ∧
          0 < (actions.getD i ("", 0, 0)).2.2)).map
        (fun i => (i, actions.getD i ("", 0, 0)))
    if eps < budget - cost0 then
      let g := (greedySort rem).foldl (greedyStep budget) ⟨chosen0, cost0, maxProfit, false⟩
      some ⟨g.chosen, g.cost, g.profit, step⟩
    else some ⟨chosen0, cost0, maxProfit, step⟩

/-- `math.isclose(a, b, rel_tol=1e-9, abs_tol=0.0)` on exact values. -/
def isclose (a b : ℚ) : Bool := |a - b| ≤ 1 / 1000000000 * max |a| |b|

/-- Aggregator fold state: the best `(total_profit, total_cost)` seen so far
and `results_same`, the list of results currently tied with it. -/
structure AggState where
  bestPC : Option (ℚ × ℚ)
  same : List WRes
deriving Repr, DecidableEq

/-- One arrival in the aggregation loop of `knapsack_dp_auto`. -/
def stepAgg (st : AggState) (r : WRes) : AggState :=
  match st.bestPC with
  | none => ⟨some (r.profit, r.cost), st.same ++ [r]⟩
  | some (bp, bc) =>
    if isclose r.profit bp && isclose r.cost bc then ⟨some (bp, bc), st.same ++ [r]⟩
    else if bp < r.profit ∨ (isclose r.profit bp ∧ bc < r.cost) then
      ⟨some (r.profit, r.cost), [r]⟩
    else st

/-- The aggregation fold over the stream of completed worker results, in
arrival order. -/
def aggState (L : List WRes) : AggState := L.foldl stepAgg ⟨none, []⟩

/-- `min(results_same, key=lambda x: x[0])`: first result with minimal step. -/
def minByStep (h : WRes) (t : List WRes) : WRes :=
  t.foldl (fun acc r => if r.step < acc.step then r else acc) h

/-- The empty Solution `([], 0.0, 0.0, {"algo": "dp", "step": MIN_STEP_CENTS})`. -/
def emptySol : WRes := ⟨[], 0, 0, MIN_STEP_CENTS⟩

/-- The Result Aggregator: fold the arrivals, then return the tied result
with the smallest granularity step (its own step as `meta["step"]`). -/
def aggregate (L : List WRes) : WRes :=
  match (aggState L).same with
  | [] => emptySol
  | h :: t =>
    let m := minByStep h t
    ⟨m.chosen, m.cost, m.profit, m.step⟩

/-- `max(5, MIN_STEP_CENTS)`, the first candidate granularity. -/
def stepLo : ℕ := max 5 MIN_STEP_CENTS

/-- `range(max(5, MIN_STEP_CENTS), MAX_STEP_CENTS + 1)`. -/
def stepCandidates : List ℕ :=
  (List.range (MAX_STEP_CENTS + 1 - stepLo)).map (fun k => k + stepLo)

/-- The vector of quantized costs at a candidate step. -/
def qmap (costs : List ℕ) (s : ℕ) : List ℕ := costs.map (fun c => quantCost c s)

/-- The Granularity Enumerator loop: accept a step unless its quantized-cost
vector was already seen, threading `(seen_cost_maps, unique_steps)`. -/
def stepFold (costs : List ℕ) (cands : List ℕ) (st : List (List ℕ) × List ℕ) :
    List (List ℕ) × List ℕ :=
  cands.foldl
    (fun st s => if qmap costs s ∈ st.1 then st else (qmap costs s :: st.1, st.2 ++ [s]))
    st

/-- The `unique_steps` component of the enumerator state.  (Kept as a named
function rather than a bare projection so that definitional unfolding of
`uniqueSteps` does not make the kernel walk the 1901-entry candidate fold.) -/
def acceptedSteps (st : List (List ℕ) × List ℕ) : List ℕ := st.2

/-- `unique_steps` as computed in `knapsack_dp_auto`. -/
def uniqueSteps (costs : List ℕ) : List ℕ :=
  acceptedSteps (stepFold costs stepCandidates ([], []))

/-- `knapsack_dp_auto` with an explicit timeout mask: `tm s = true` means the
worker at step `s` produced no result (its own guard or the global limit);
the surviving workers' results arrive in step order. -/
def knapsack_dp_auto_with (tm : ℕ → Bool) (actions : List Act) (budget : ℚ) : WRes :=
  if prune_exact actions budget = [] then emptySol
  else
    aggregate
      (((uniqueSteps (costsCents (prune_exact actions budget))).filter
        (fun s => !tm s)).filterMap
        (fun s => dp_for_step (prune_exact actions budget) budget s))

/-- `knapsack_dp_auto` in the run where every enumerated worker completes. -/
def knapsack_dp_auto (actions : List Act) (budget : ℚ) : WRes :=
  knapsack_dp_auto_with (fun _ => false) actions budget

/-- The granularities actually explored by a call: none when the pruned
option list is empty (the function returns before enumerating), otherwise
the enumerated `unique_steps`. -/
def exploredSteps (actions : List Act) (budget : ℚ) : List ℕ :=
  if prune_exact actions budget = [] then []
  else uniqueSteps (costsCents (prune_exact actions budget))

/-- The results a call's fold declares tied with its final best pair. -/
def tiedWithBest (L : List WRes) : List WRes :=
  match (aggState L).bestPC with
  | none => []
  | some (bp, bc) => L.filter (fun r => isclose r.profit bp && isclose r.cost bc)

/-! ## Granularity Enumerator lemmas

The candidate list has 1901 entries, far beyond what kernel reduction can
walk through, so the concrete evaluations below go through
`uniqueSteps_small`: when every cent cost is at most `stepLo`, all candidate
steps quantize every cost to the same vector, and the enumerator keeps only
the first candidate. -/

theorem stepFold_cons (costs s : _) (t : List ℕ) (st : List (List ℕ) × List ℕ) :
    stepFold costs (s :: t) st =
      stepFold costs t
        (if qmap costs s ∈ st.1 then st else (qmap costs s :: st.1, st.2 ++ [s])) := rfl

theorem stepFold_skip_all {costs : List ℕ} {cands : List ℕ}
    {seen : List (List ℕ)} {acc : List ℕ}
    (h : ∀ s ∈ cands, qmap costs s ∈ seen) :
    stepFold costs cands (seen, acc) = (seen, acc) := by
  induction cands with
  | nil => rfl
  | cons s t ih =>
    rw [stepFold_cons, if_pos (h s (List.mem_cons_self s t))]
    exact ih fun x hx => h x (List.mem_cons_of_mem _ hx)

theorem stepCandidates_cons :
    stepCandidates =
      stepLo :: (List.range (MAX_STEP_CENTS - stepLo)).map (fun k => k + 1 + stepLo) := by
  show (List.range ((MAX_STEP_CENTS - stepLo) + 1)).map (fun k => k + stepLo) = _
  rw [List.range_succ_eq_map, List.map_cons, List.map_map]
  congr 1

theorem mem_stepCandidates {s : ℕ} :
    s ∈ stepCandidates ↔ stepLo ≤ s ∧ s ≤ MAX_STEP_CENTS := by
  unfold stepCandidates
  simp only [List.mem_map, List.mem_range]
  constructor
  · rintro ⟨k, hk, rfl⟩; omega
  · rintro ⟨h1, h2⟩; exact ⟨s - stepLo, by omega, by omega⟩

theorem uniqueSteps_qmap_const {costs : List ℕ}
    (h : ∀ s ∈ stepCandidates, qmap costs s = qmap costs stepLo) :
    uniqueSteps costs = [stepLo] := by
  have hskip : ∀ s ∈ (List.range (MAX_STEP_CENTS - stepLo)).map (fun k => k + 1 + stepLo),
      qmap costs s ∈ [qmap costs stepLo] := by
    intro s hs
    have hmem : s ∈ stepCandidates := by
      rw [stepCandidates_cons]; exact List.mem_cons_of_mem _ hs
    rw [h s hmem]
    exact List.mem_cons_self _ _
  unfold uniqueSteps
  rw [stepCandidates_cons, stepFold_cons, if_neg (by simp)]
  show acceptedSteps (stepFold costs _ ([qmap costs stepLo], [stepLo])) = [stepLo]
  rw [stepFold_skip_all hskip]
  rfl

theorem quantCost_small {c s : ℕ} (hc : c ≤ s) (hs : 0 < s) :
    quantCost c s = if c = 0 then 0 else 1 := by
  unfold quantCost
  rcases Nat.eq_zero_or_pos c with h0 | h1
  · subst h0
    simp only [if_pos rfl, Nat.zero_add]
    exact Nat.div_eq_of_lt (by omega)
  · rw [if_neg (by omega)]
    exact Nat.div_eq_of_lt_le (by omega) (by omega)

theorem uniqueSteps_small {costs : List ℕ} (h : ∀ c ∈ costs, c ≤ stepLo) :
    uniqueSteps costs = [stepLo] := by
  apply uniqueSteps_qmap_const
  intro s hs
  have hslo : stepLo ≤ s := (mem_stepCandidates.mp hs).1
  have hlo : 0 < stepLo := by decide
  unfold qmap
  apply List.map_congr_left
  intro c hc
  rw [quantCost_small (le_trans (h c hc) hslo) (lt_of_lt_of_le hlo hslo),
    quantCost_small (h c hc) hlo]

/-! ## Concrete inputs used by the counterexamples -/

/-- Two options whose real costs exceed their cent-rounded costs. -/
def exC1 : List Act := [("A", 10049/10000, 1), ("B", 9949/10000, 1/2)]

/-- Two options whose equal quantized costs make the second one overwrite the
first one's parent pointer at cell 1 after cell 2 already referenced it. -/
def exC2 : List Act := [("A", 1/2, 10), ("B", 7/10, 20)]

/-- Three worker results exhibiting the non-transitivity of the `isclose`
tie detection (profits 1, 1 + 2e-9, 1 + 1e-9; the third beats the second on
cost within profit tolerance, while the first is tied with the third). -/
def exC3 : List WRes :=
  [⟨[], 5, 1, 1⟩, ⟨[], 1, 1 + 2/1000000000, 2⟩, ⟨[], 5, 1 + 1/1000000000, 3⟩]

/-- Two worker results with profits equal within tolerance but costs apart:
whichever arrives second wins. -/
def exC4a : WRes := ⟨[], 1, 1 + 1/1000000000000, 7⟩

/-- Companion result to `exC4a`. -/
def exC4b : WRes := ⟨[], 2, 1, 9⟩

/-- Option list for the budget-monotonicity counterexample: at budget 1.00
the DP takes only `A` (profit 10) and leaves nothing for the greedy fill; at
budget 0.99 the DP table is trivial and the greedy fill takes `C` and `B`
(profit 11.9). -/
def exC5 : List Act := [("A", 1, 10), ("B", 1/2, 12), ("C", 49/100, 590/49)]

/-- Items for the DP-table invariant counterexample: quantized costs 2 and 1,
profits 1 and 10; the second item cannot improve cell 2 because the
descending pass reads the not-yet-updated cell 1. -/
def exC7 : List Act := [("X", 101/100, 100/101), ("Y", 1/2, 20)]

/-! ## C2 -/

unseal Rat.add Rat.mul Rat.inv Rat.sub in
/-- C2: the returned `total_profit` must equal the sum of `cost × rate` over
the options in `chosen`.  Evaluating `_dp_for_step` on
`[("A", 0.5, 10), ("B", 0.7, 20)]` with budget `2.0` and step `100` shows the
code returning `total_profit = 24` while the chosen options sum to `19`:
the parent chain visits index 1 twice (a stale pointer), so the DP value
`best[w*] = 19` double-counts option `B`, and the greedy fill then adds
option `A` on top. -/
theorem C2_profit_mismatch :
    dp_for_step exC2 2 100 =
      some ⟨[("B", 7/10, 20), ("A", 1/2, 10)], 6/5, 24, 100⟩ ∧
    (([("B", 7/10, 20), ("A", 1/2, 10)] : List Act).map (fun a => a.2.1 * a.2.2)).sum = 19 ∧
    (24 : ℚ) ≠ 19 := by
  refine ⟨by decide, by decide, by norm_num⟩

/-! ## Counterexamples for the corrected claims -/

set_option maxRecDepth 4000 in
unseal Rat.add Rat.mul Rat.inv Rat.sub in
/-- Evaluation of the full call on `exC1` at budget 1.995: a single
granularity (100) is enumerated, its worker takes both options, and the
returned `total_cost` is 1.9998. -/
theorem knapsack_exC1_eval :
    knapsack_dp_auto exC1 (399/200) = ⟨exC1, 9999/5000, 30047/20000, 100⟩ := by
  have hps : prune_exact exC1 (399/200) = exC1 := by decide
  have hus : uniqueSteps (costsCents exC1) = [100] := by
    have hcc : costsCents exC1 = [100, 99] := by decide
    rw [hcc]
    exact uniqueSteps_small (by decide)
  unfold knapsack_dp_auto knapsack_dp_auto_with
  rw [hps, if_neg (by decide : ¬(exC1 = [])), hus]
  decide

/-- C1 is false as stated: on `exC1` (costs 1.0049 and 0.9949, both positive
rates) with budget 1.995, every hypothesis of the claim holds, yet the
returned `total_cost` is 1.9998, exceeding the budget by 0.0048 — far beyond
any floating-point epsilon (and beyond the code's own 1e-9 tolerance). -/
theorem C1_counterexample :
    (0 : ℚ) < 10049/10000 ∧ (0 : ℚ) < 1 ∧ (0 : ℚ) < 9949/10000 ∧ (0 : ℚ) < 1/2 ∧
    (0 : ℚ) < 399/200 ∧
    (knapsack_dp_auto exC1 (399/200)).cost = 9999/5000 ∧
    ¬ (knapsack_dp_auto exC1 (399/200)).cost ≤ 399/200 + eps := by
  rw [knapsack_exC1_eval]
  refine ⟨by norm_num, by norm_num, by norm_num, by norm_num, by norm_num, rfl, ?_⟩
  rw [eps]
  norm_num


set_option maxRecDepth 4000 in
unseal Rat.add Rat.mul Rat.inv Rat.sub in
/-- Evaluation of the full call on `exC5` at budget 0.99: option `A` is
pruned (cost 1 > 0.99), the quantized budget is 0 units, the DP selects
nothing, and the greedy fill adds `C` then `B` for a profit of 11.9. -/
theorem knapsack_exC5_low_eval :
    (knapsack_dp_auto exC5 (99/100)).profit = 119/10 := by
  have hps : prune_exact exC5 (99/100) = [("B", 1/2, 12), ("C", 49/100, 590/49)] := by
    decide
  have hus : uniqueSteps (costsCents [("B", 1/2, 12), ("C", 49/100, 590/49)]) = [100] := by
    have hcc : costsCents [("B", 1/2, 12), ("C", 49/100, 590/49)] = [50, 49] := by decide
    rw [hcc]
    exact uniqueSteps_small (by decide)
  unfold knapsack_dp_auto knapsack_dp_auto_with
  rw [hps, if_neg (by decide), hus]
  decide

set_option maxRecDepth 4000 in
unseal Rat.add Rat.mul Rat.inv Rat.sub in
/-- Evaluation of the full call on `exC5` at budget 1.00: all three options
survive pruning, the quantized budget is 1 unit, the DP takes `A` alone
(profit 10) and spends the whole budget, so the greedy fill never runs. -/
theorem knapsack_exC5_high_eval :
    (knapsack_dp_auto exC5 1).profit = 10 := by
  have hps : prune_exact exC5 1 = exC5 := by decide
  have hus : uniqueSteps (costsCents exC5) = [100] := by
    have hcc : costsCents exC5 = [100, 50, 49] := by decide
    rw [hcc]
    exact uniqueSteps_small (by decide)
  unfold knapsack_dp_auto knapsack_dp_auto_with
  rw [hps, if_neg (by decide), hus]
  decide

/-- C5 is false as stated: with the fixed option list `exC5` and budgets
`0.99 ≤ 1.00`, the total profit returned at the larger budget (10) is
strictly below the one returned at the smaller budget (11.9).  Raising the
budget lets option `A` through the pruner, the quantized DP then prefers
`A` alone and exhausts the quantized budget, and the quantization-blind
greedy fill no longer runs. -/
theorem C5_counterexample :
    (99/100 : ℚ) ≤ 1 ∧
    (knapsack_dp_auto exC5 (99/100)).profit = 119/10 ∧
    (knapsack_dp_auto exC5 1).profit = 10 ∧
    ¬ (knapsack_dp_auto exC5 (99/100)).profit ≤ (knapsack_dp_auto exC5 1).profit := by
  refine ⟨by norm_num, knapsack_exC5_low_eval, knapsack_exC5_high_eval, ?_⟩
  rw [knapsack_exC5_low_eval, knapsack_exC5_high_eval]
  norm_num

unseal Rat.add Rat.mul Rat.inv Rat.sub in
/-- C7 is false as stated: on `exC7` (both costs and rates positive) at
budget 2 and step 100, the table after the filling loop is `[0, 10, 1]`;
cell 2 is reachable with value 1, yet the single option of index 1 has
quantized cost `1 ≤ 2` and profit `10 > 1`.  The pass for that option walks
`w` downward, so cell 2 reads the not-yet-updated cell 1 and the table holds
best profit at exactly `w` units, not at most `w`. -/
theorem C7_counterexample :
    (0 : ℚ) < 101/100 ∧ (0 : ℚ) < 100/101 ∧ (0 : ℚ) < 1/2 ∧ (0 : ℚ) < 20 ∧
    dpBestTable exC7 2 100 = [0, 10, 1] ∧
    (workerCus exC7 100).getD 1 0 = 1 ∧ (1 : ℕ) ≤ 2 ∧
    (workerProfits exC7).getD 1 0 = 10 ∧
    ¬ (dpBestTable exC7 2 100).getD 2 (-1) = -1 ∧
    ¬ (workerProfits exC7).getD 1 0 ≤ (dpBestTable exC7 2 100).getD 2 (-1) := by
  refine ⟨by norm_num, by norm_num, by norm_num, by norm_num, by decide, by decide,
    by decide, by decide, by decide, by decide⟩

unseal Rat.add Rat.mul Rat.inv Rat.sub in
/-- C8 is false as stated: the option cost 0.004 is positive and 100 is a
candidate step, yet `int(round(0.004 * 100)) = 0`, so the quantized cost
`(0 + 100 - 1) // 100` is 0, not at least 1. -/
theorem C8_counterexample :
    (0 : ℚ) < 1/250 ∧ (100 : ℕ) ∈ stepCandidates ∧
    quantCost (toCents (1/250)) 100 = 0 ∧
    ¬ (1 ≤ quantCost (toCents (1/250)) 100) := by
  refine ⟨by norm_num, mem_stepCandidates.mpr (by decide), by decide, by decide⟩

/-- C8 amended: whenever the cent-rounded cost is at least one minor unit
(`int(round(cost * 100)) ≥ 1`, which holds for every cost above half a
cent) and the step is positive, the quantized cost is an integer at
least 1. -/
theorem C8_amended (c : ℚ) (step : ℕ) (h1 : 1 ≤ toCents c) (h2 : 1 ≤ step) :
    1 ≤ quantCost (toCents c) step := by
  unfold quantCost
  have h3 : step ≤ toCents c + step - 1 := by omega
  exact Nat.le_div_iff_mul_le (by omega) |>.mpr (by omega)

unseal Rat.add Rat.mul Rat.inv Rat.sub in
/-- Witness for `C8_amended` at cost 0.5 and step 100. -/
theorem C8_amended_witness :
    1 ≤ toCents (1/2) ∧ (1 : ℕ) ≤ 100 ∧ 1 ≤ quantCost (toCents (1/2)) 100 :=
  ⟨by decide, by decide, C8_amended (1/2) 100 (by decide) (by decide)⟩

unseal Rat.add Rat.mul Rat.inv Rat.sub in
/-- C9 is false as stated: on an empty option list the function returns
before enumerating any granularity, so the explored set is empty, yet the
returned meta step is `MIN_STEP_CENTS = 100` — not a member of the (empty)
explored set. -/
theorem C9_counterexample :
    exploredSteps ([] : List Act) 1 = [] ∧
    (knapsack_dp_auto ([] : List Act) 1).step = 100 ∧
    (100 : ℕ) ∉ ([] : List ℕ) := by
  refine ⟨by decide, by decide, by decide⟩

unseal Rat.add Rat.mul Rat.inv Rat.sub in
/-- C3 is false as stated: in `exC3` the final best pair is that of the
third result (profit `1 + 1e-9`, cost 5, step 3) and the first result
(profit 1, cost 5, step 1) is tied with it within `math.isclose` tolerance,
yet the aggregator returns step 3: the first result was discarded earlier
against an intermediate best (profit `1 + 2e-9`) it was not close to, so it
never entered `results_same`. -/
theorem C3_counterexample :
    (aggregate exC3).step = 3 ∧
    (⟨[], 5, 1, 1⟩ : WRes) ∈ tiedWithBest exC3 ∧
    (⟨[], 5, 1, 1⟩ : WRes).step = 1 ∧
    ¬ ((aggregate exC3).step ≤ (⟨[], 5, 1, 1⟩ : WRes).step) := by
  refine ⟨by decide, by decide, by decide, by decide⟩

unseal Rat.add Rat.mul Rat.inv Rat.sub in
/-- C4 is false as stated: `exC4a` and `exC4b` have profits equal within the
`isclose` tolerance but costs far apart; whichever arrives second wins the
`total_cost > best_cost` comparison, so the two arrival orders of the same
two-result set produce different `(total_profit, total_cost, granularity)`. -/
theorem C4_counterexample :
    List.Perm [exC4a, exC4b] [exC4b, exC4a] ∧
    aggregate [exC4a, exC4b] ≠ aggregate [exC4b, exC4a] := by
  refine ⟨List.Perm.swap _ _ _, by decide⟩

/-! ## C6 -/

/-- C6: if the pruned option list is empty, or every worker fails to produce
a result, `knapsack_dp_auto` returns the empty Solution
`([], 0, 0, step = MIN_STEP_CENTS)`; the model is a total function, so no
exception can reach the caller. -/
theorem C6_no_result_empty_solution (actions : List Act) (budget : ℚ) (tm : ℕ → Bool) :
    (prune_exact actions budget = [] → knapsack_dp_auto_with tm actions budget = emptySol) ∧
    ((∀ s, tm s = true) → knapsack_dp_auto_with tm actions budget = emptySol) ∧
    emptySol = ⟨[], 0, 0, MIN_STEP_CENTS⟩ := by
  refine ⟨?_, ?_, rfl⟩
  · intro h
    unfold knapsack_dp_auto_with
    rw [if_pos h]
  · intro h
    unfold knapsack_dp_auto_with
    by_cases hp : prune_exact actions budget = []
    · rw [if_pos hp]
    · rw [if_neg hp]
      have hf : (uniqueSteps (costsCents (prune_exact actions budget))).filter
          (fun s => !tm s) = [] := by
        apply List.filter_eq_nil_iff.mpr
        intro a _
        simp [h a]
      rw [hf]
      rfl

unseal Rat.add Rat.mul Rat.inv Rat.sub in
/-- Witness for `C6_no_result_empty_solution`: a run where every worker
times out, and a run on a list whose only option exceeds the budget. -/
theorem C6_witness :
    knapsack_dp_auto_with (fun _ => true) [("X", 1, 1)] (1/2) = emptySol ∧
    knapsack_dp_auto_with (fun _ => false) ([("X", 1, 1)] : List Act) (1/2) = emptySol :=
  ⟨(C6_no_result_empty_solution [("X", 1, 1)] (1/2) (fun _ => true)).2.1 (fun _ => rfl),
   (C6_no_result_empty_solution [("X", 1, 1)] (1/2) (fun _ => false)).1 (by decide)⟩

/-! ## C10: the Granularity Enumerator -/

/-- A candidate step is accepted exactly when it is the first candidate with
its quantized-cost vector. -/
def firstAccepted (costs : List ℕ) (s : ℕ) : Bool :=
  decide (∀ t ∈ stepCandidates, t < s → qmap costs t ≠ qmap costs s)

theorem stepCandidates_pairwise : stepCandidates.Pairwise (· < ·) := by
  unfold stepCandidates
  exact (List.pairwise_lt_range _).map _ (fun a b h => by omega)

theorem stepFold_accept_spec (costs : List ℕ) :
    ∀ (todo done : List ℕ) (seen : List (List ℕ)) (acc : List ℕ),
      stepCandidates = done ++ todo →
      (∀ m, m ∈ seen ↔ ∃ t ∈ done, qmap costs t = m) →
      acc = done.filter (firstAccepted costs) →
      acceptedSteps (stepFold costs todo (seen, acc)) =
        stepCandidates.filter (firstAccepted costs) := by
  intro todo
  induction todo with
  | nil =>
    intro done seen acc hsplit _ hacc
    show acc = _
    rw [hacc, hsplit, List.append_nil]
  | cons s t ih =>
    intro done seen acc hsplit hseen hacc
    have hpw : (done ++ s :: t).Pairwise (· < ·) := by
      rw [← hsplit]; exact stepCandidates_pairwise
    rw [List.pairwise_append] at hpw
    obtain ⟨_, hpwst, hcross⟩ := hpw
    have hds : ∀ d ∈ done, d < s := fun d hd => hcross d hd s (List.mem_cons_self s t)
    have hst : ∀ u ∈ t, s < u := fun u hu => (List.pairwise_cons.mp hpwst).1 u hu
    have hsplit' : stepCandidates = (done ++ [s]) ++ t := by
      rw [hsplit, List.append_assoc]; rfl
    rw [stepFold_cons]
    by_cases hmem : qmap costs s ∈ seen
    · rw [if_pos hmem]
      have hfa : firstAccepted costs s = false := by
        obtain ⟨t0, ht0, hq⟩ := (hseen _).mp hmem
        have ht0c : t0 ∈ stepCandidates := by
          rw [hsplit]; exact List.mem_append_left _ ht0
        simp only [firstAccepted, decide_eq_false_iff_not]
        push_neg
        exact ⟨t0, ht0c, hds t0 ht0, hq⟩
      refine ih (done ++ [s]) seen acc hsplit' ?_ ?_
      swap
      · rw [hacc, List.filter_append]
        simp [hfa]
      intro m
      rw [hseen m]
      constructor
      · rintro ⟨t0, ht0, hq⟩
        exact ⟨t0, List.mem_append_left _ ht0, hq⟩
      · rintro ⟨t0, ht0, hq⟩
        rcases List.mem_append.mp ht0 with h | h
        · exact ⟨t0, h, hq⟩
        · obtain rfl : t0 = s := by simpa using h
          obtain ⟨t1, ht1, hq1⟩ := (hseen _).mp (hq ▸ hmem)
          exact ⟨t1, ht1, hq1⟩
    · rw [if_neg hmem]
      have hfa : firstAccepted costs s = true := by
        simp only [firstAccepted, decide_eq_true_eq]
        intro t0 ht0c hlt hq
        have ht0d : t0 ∈ done := by
          rw [hsplit] at ht0c
          rcases List.mem_append.mp ht0c with h | h
          · exact h
          · rcases List.mem_cons.mp h with rfl | h2
            · omega
            · exact absurd (hst _ h2) (by omega)
        exact hmem ((hseen _).mpr ⟨t0, ht0d, hq⟩)
      refine ih (done ++ [s]) (qmap costs s :: seen) (acc ++ [s]) hsplit' ?_ ?_
      swap
      · rw [hacc, List.filter_append]
        simp [hfa]
      intro m
      constructor
      · intro hm
        rcases List.mem_cons.mp hm with rfl | hm2
        · exact ⟨s, by simp, rfl⟩
        · obtain ⟨t0, ht0, hq⟩ := (hseen m).mp hm2
          exact ⟨t0, List.mem_append_left _ ht0, hq⟩
      · rintro ⟨t0, ht0, hq⟩
        rcases List.mem_append.mp ht0 with h | h
        · exact List.mem_cons_of_mem _ ((hseen m).mpr ⟨t0, h, hq⟩)
        · obtain rfl : t0 = s := by simpa using h
          exact hq ▸ List.mem_cons_self _ _

theorem uniqueSteps_eq_filter (costs : List ℕ) :
    uniqueSteps costs = stepCandidates.filter (firstAccepted costs) := by
  have h := stepFold_accept_spec costs stepCandidates [] [] []
    ((List.nil_append _).symm) (by simp) (by rfl)
  exact h

theorem mem_uniqueSteps {costs : List ℕ} {s : ℕ} :
    s ∈ uniqueSteps costs ↔ s ∈ stepCandidates ∧ firstAccepted costs s = true := by
  rw [uniqueSteps_eq_filter]
  exact List.mem_filter

theorem skipped_has_accepted_twin {costs : List ℕ} :
    ∀ s, s ∈ stepCandidates → s ∉ uniqueSteps costs →
      ∃ u ∈ uniqueSteps costs, u < s ∧ qmap costs u = qmap costs s := by
  intro s
  induction s using Nat.strong_induction_on with
  | _ s ih =>
    intro hs hnot
    have hff : ¬ ∀ t ∈ stepCandidates, t < s → qmap costs t ≠ qmap costs s := by
      intro hall
      exact hnot (mem_uniqueSteps.mpr ⟨hs, by simpa [firstAccepted] using hall⟩)
    push_neg at hff
    obtain ⟨t0, ht0c, hlt, hq⟩ := hff
    by_cases h0 : t0 ∈ uniqueSteps costs
    · exact ⟨t0, h0, hlt, hq⟩
    · obtain ⟨u, hu, hul, huq⟩ := ih t0 hlt ht0c h0
      exact ⟨u, hu, lt_trans hul hlt, huq.trans hq⟩

theorem stepLo_mem_uniqueSteps (costs : List ℕ) : stepLo ∈ uniqueSteps costs := by
  refine mem_uniqueSteps.mpr ⟨mem_stepCandidates.mpr ⟨le_refl _, by decide⟩, ?_⟩
  simp only [firstAccepted, decide_eq_true_eq]
  intro t ht hlt
  exact absurd (mem_stepCandidates.mp ht).1 (by omega)

/-- C10: the enumerated steps form a strictly increasing (hence duplicate
free) sequence inside `[MIN_STEP_CENTS, MAX_STEP_CENTS]`; a candidate step
is skipped exactly when an accepted smaller step has the same quantized-cost
vector; and the sequence is nonempty whenever the pruned option list is
nonempty (the first candidate is always accepted). -/
theorem C10_enumeration (costs : List ℕ) (actions : List Act) (budget : ℚ) :
    (uniqueSteps costs).Pairwise (· < ·) ∧
    (∀ s ∈ uniqueSteps costs, MIN_STEP_CENTS ≤ s ∧ s ≤ MAX_STEP_CENTS) ∧
    (∀ s ∈ stepCandidates,
      (s ∉ uniqueSteps costs ↔
        ∃ u ∈ uniqueSteps costs, u < s ∧ qmap costs u = qmap costs s)) ∧
    (prune_exact actions budget ≠ [] →
      uniqueSteps (costsCents (prune_exact actions budget)) ≠ []) := by
  refine ⟨?_, ?_, ?_, ?_⟩
  · rw [uniqueSteps_eq_filter]
    exact stepCandidates_pairwise.filter _
  · intro s hs
    have hc := (mem_uniqueSteps.mp hs).1
    have := mem_stepCandidates.mp hc
    exact ⟨le_trans (by decide) this.1, this.2⟩
  · intro s hs
    constructor
    · exact skipped_has_accepted_twin s hs
    · rintro ⟨u, hu, hul, huq⟩ hmem
      have hfa := (mem_uniqueSteps.mp hmem).2
      simp only [firstAccepted, decide_eq_true_eq] at hfa
      exact hfa u (mem_uniqueSteps.mp hu).1 hul huq
  · intro _ h
    have hm := stepLo_mem_uniqueSteps (costsCents (prune_exact actions budget))
    rw [h] at hm
    exact List.not_mem_nil _ hm

/-! ## C7: DP-table invariants -/

theorem getD_map_range {α : Type _} (g : ℕ → α) {n w : ℕ} (d : α) (h : w < n) :
    ((List.range n).map g).getD w d = g w := by
  rw [List.getD_eq_getElem?_getD, List.getElem?_map, List.getElem?_range h]
  rfl

theorem quantCost_pos {c s : ℕ} (hc : 1 ≤ c) (hs : 1 ≤ s) : 1 ≤ quantCost c s := by
  unfold quantCost
  exact (Nat.le_div_iff_mul_le (by omega)).mpr (by omega)

theorem dpRound_best_length (B idx cu : ℕ) (p : ℚ) (st : DPState) :
    (dpRound B idx cu p st).best.length = B + 1 := by
  simp [dpRound]

theorem dpRound_best_getD (B idx cu : ℕ) (p : ℚ) (st : DPState) {w : ℕ} (h : w ≤ B) :
    (dpRound B idx cu p st).best.getD w (-1) = dpCell cu p st.best w :=
  getD_map_range _ _ (by omega)

theorem dpCell_ge (cu : ℕ) (p : ℚ) (best : List ℚ) (w : ℕ) :
    best.getD w (-1) ≤ dpCell cu p best w := by
  unfold dpCell
  by_cases h1 : cu ≤ w
  · rw [if_pos h1]
    by_cases h2 : 0 ≤ best.getD (w - cu) (-1) ∧
        best.getD w (-1) < best.getD (w - cu) (-1) + p
    · rw [if_pos h2]
      exact le_of_lt h2.2
    · rw [if_neg h2]
  · rw [if_neg h1]

theorem dpCell_zero (cu : ℕ) (p : ℚ) (best : List ℚ) (hcu : 1 ≤ cu) :
    dpCell cu p best 0 = best.getD 0 (-1) := by
  unfold dpCell
  rw [if_neg (by omega)]

theorem dpCell_hit (cu : ℕ) (p : ℚ) (best : List ℚ) (h0 : best.getD 0 (-1) = 0) :
    p ≤ dpCell cu p best cu := by
  unfold dpCell
  rw [if_pos (le_refl cu), Nat.sub_self, h0]
  by_cases h2 : (0 : ℚ) ≤ 0 ∧ best.getD cu (-1) < 0 + p
  · rw [if_pos h2]
    simp
  · rw [if_neg h2]
    push_neg at h2
    simpa using h2 (le_refl 0)

theorem dpFillAux_best_inv (B : ℕ) :
    ∀ (cus : List ℕ) (ps : List ℚ) (idx : ℕ) (st : DPState),
      (∀ c ∈ cus, 1 ≤ c) →
      st.best.length = B + 1 →
      st.best.getD 0 (-1) = 0 →
      (dpFillAux B idx cus ps st).best.length = B + 1 ∧
      (dpFillAux B idx cus ps st).best.getD 0 (-1) = 0 ∧
      (∀ w, st.best.getD w (-1) ≤ (dpFillAux B idx cus ps st).best.getD w (-1)) ∧
      (∀ k, k < cus.length → k < ps.length → cus.getD k 0 ≤ B →
        ps.getD k 0 ≤ (dpFillAux B idx cus ps st).best.getD (cus.getD k 0) (-1)) := by
  intro cus
  induction cus with
  | nil =>
    intro ps idx st _ hlen h0
    exact ⟨hlen, h0, fun w => le_refl _, fun k hk1 _ _ => absurd hk1 (by simp)⟩
  | cons cu cus' ih =>
    intro ps idx st hc hlen h0
    match ps with
    | [] =>
      exact ⟨hlen, h0, fun w => le_refl _, fun k _ hk2 _ => absurd hk2 (by simp)⟩
    | p :: ps' =>
      have hcu : 1 ≤ cu := hc cu (List.mem_cons_self _ _)
      have hlen' : (dpRound B idx cu p st).best.length = B + 1 := dpRound_best_length ..
      have h0' : (dpRound B idx cu p st).best.getD 0 (-1) = 0 := by
        rw [dpRound_best_getD B idx cu p st (by omega), dpCell_zero cu p st.best hcu, h0]
      obtain ⟨hL, hZ, hMono, hK⟩ := ih ps' (idx + 1) (dpRound B idx cu p st)
        (fun c hcm => hc c (List.mem_cons_of_mem _ hcm)) hlen' h0'
      have hstep : ∀ w, st.best.getD w (-1) ≤ (dpRound B idx cu p st).best.getD w (-1) := by
        intro w
        by_cases hw : w ≤ B
        · rw [dpRound_best_getD B idx cu p st hw]
          exact dpCell_ge cu p st.best w
        · rw [List.getD_eq_default _ _ (by omega : st.best.length ≤ w),
            List.getD_eq_default _ _ (by omega : (dpRound B idx cu p st).best.length ≤ w)]
      refine ⟨hL, hZ, fun w => le_trans (hstep w) (hMono w), ?_⟩
      intro k hk1 hk2 hk3
      match k with
      | 0 =>
        have hk3' : cu ≤ B := hk3
        show p ≤ (dpFillAux B (idx + 1) cus' ps' (dpRound B idx cu p st)).best.getD cu (-1)
        have hhit : p ≤ (dpRound B idx cu p st).best.getD cu (-1) := by
          rw [dpRound_best_getD B idx cu p st hk3']
          exact dpCell_hit cu p st.best h0
        exact le_trans hhit (hMono cu)
      | k' + 1 =>
        exact hK k' (by simpa using hk1) (by simpa using hk2) hk3

theorem dpFill_best_inv (cus : List ℕ) (ps : List ℚ) (B : ℕ)
    (hc : ∀ c ∈ cus, 1 ≤ c) :
    (dpFill cus ps B).best.getD 0 (-1) = 0 ∧
    (∀ k, k < cus.length → k < ps.length → cus.getD k 0 ≤ B →
      ps.getD k 0 ≤ (dpFill cus ps B).best.getD (cus.getD k 0) (-1)) := by
  have hinit_len : (dpInit B).best.length = B + 1 := by simp [dpInit]
  have hinit0 : (dpInit B).best.getD 0 (-1) = 0 := by
    show ((List.range (B + 1)).map _).getD 0 (-1) = 0
    rw [getD_map_range _ _ (by omega)]
    simp
  obtain ⟨_, h0, _, hk⟩ := dpFillAux_best_inv B cus ps 0 (dpInit B) hc hinit_len hinit0
  exact ⟨h0, hk⟩

theorem workerCus_length (actions : List Act) (step : ℕ) :
    (workerCus actions step).length = actions.length := by
  simp [workerCus, costsCents]

theorem workerProfits_length (actions : List Act) :
    (workerProfits actions).length = actions.length := by
  simp [workerProfits]

/-- C7 amended: after the filling loop, `best[0] = 0` and for every `w > 0`
within the table, `best[w]` is at least the profit of any single option
whose quantized cost is exactly `w` — the table is an exact-weight table
(`best[w]` = best profit at exactly `w` units), so ≥-domination only holds
at the option's own quantized cost, not at every larger `w` (see
`C7_counterexample`), and `best[0] = 0` needs every cent cost to be at
least one minor unit (cost 0.004 rounds to 0 cents and cu = 0 would bump
cell 0). -/
theorem C7_amended (actions : List Act) (budget : ℚ) (step : ℕ)
    (hcents : ∀ a ∈ actions, 1 ≤ toCents a.2.1) (hstep : 1 ≤ step) :
    (dpBestTable actions budget step).getD 0 (-1) = 0 ∧
    (∀ w, 0 < w → w ≤ budgetUnits budget step →
      ∀ i, i < actions.length → (workerCus actions step).getD i 0 = w →
        (workerProfits actions).getD i 0 ≤ (dpBestTable actions budget step).getD w (-1)) := by
  have hc : ∀ c ∈ workerCus actions step, 1 ≤ c := by
    intro c hcm
    unfold workerCus costsCents at hcm
    rw [List.map_map, List.mem_map] at hcm
    obtain ⟨a, ha, rfl⟩ := hcm
    exact quantCost_pos (hcents a ha) hstep
  obtain ⟨h0, hk⟩ := dpFill_best_inv (workerCus actions step) (workerProfits actions)
    (budgetUnits budget step) hc
  refine ⟨h0, ?_⟩
  intro w _ hwB i hi hcu
  have := hk i (by rw [workerCus_length]; exact hi) (by rw [workerProfits_length]; exact hi)
    (by rw [hcu]; exact hwB)
  rw [hcu] at this
  exact this

unseal Rat.add Rat.mul Rat.inv Rat.sub in
/-- Witness for `C7_amended` on a single option of cost 1, rate 2, budget 1,
step 100: the table is `[0, 2]` and cell 1 dominates the option's profit. -/
theorem C7_amended_witness :
    (dpBestTable [("X", 1, 2)] 1 100).getD 0 (-1) = 0 ∧
    (workerProfits [("X", 1, 2)]).getD 0 0 ≤ (dpBestTable [("X", 1, 2)] 1 100).getD 1 (-1) :=
  ⟨(C7_amended [("X", 1, 2)] 1 100 (by decide) (by decide)).1,
   (C7_amended [("X", 1, 2)] 1 100 (by decide) (by decide)).2 1 (by decide) (by decide)
     0 (by decide) (by decide)⟩

/-! ## C5: DP-phase monotonicity in the budget -/

theorem getD_take {α : Type _} (l : List α) {k i : ℕ} (d : α) (h : i < k) :
    (l.take k).getD i d = l.getD i d := by
  rw [List.getD_eq_getElem?_getD, List.getD_eq_getElem?_getD, List.getElem?_take, if_pos h]

theorem take_map_range {α : Type _} (g : ℕ → α) {m n : ℕ} (h : m ≤ n) :
    ((List.range n).map g).take m = (List.range m).map g := by
  rw [← List.map_take, List.take_range, Nat.min_eq_left h]

theorem dpCell_congr_take (cu : ℕ) (p : ℚ) (b1 b2 : List ℚ) (k : ℕ)
    (hb : b1 = b2.take k) {w : ℕ} (hw : w < k) :
    dpCell cu p b1 w = dpCell cu p b2 w := by
  subst hb
  unfold dpCell
  rw [getD_take b2 (-1) hw, getD_take b2 (-1) (by omega : w - cu < k)]

theorem dpFillAux_best_take (B1 B2 : ℕ) (hB : B1 ≤ B2) :
    ∀ (cus : List ℕ) (ps : List ℚ) (idx : ℕ) (st1 st2 : DPState),
      st1.best = st2.best.take (B1 + 1) →
      (dpFillAux B1 idx cus ps st1).best =
        (dpFillAux B2 idx cus ps st2).best.take (B1 + 1) := by
  intro cus
  induction cus with
  | nil => intro ps idx st1 st2 hb; exact hb
  | cons cu cus' ih =>
    intro ps idx st1 st2 hb
    match ps with
    | [] => exact hb
    | p :: ps' =>
      refine ih ps' (idx + 1) (dpRound B1 idx cu p st1) (dpRound B2 idx cu p st2) ?_
      show (List.range (B1 + 1)).map (dpCell cu p st1.best) =
        ((List.range (B2 + 1)).map (dpCell cu p st2.best)).take (B1 + 1)
      rw [take_map_range _ (by omega)]
      exact List.map_congr_left fun w hw =>
        dpCell_congr_take cu p st1.best st2.best (B1 + 1) hb (List.mem_range.mp hw)

theorem dpFill_best_take (cus : List ℕ) (ps : List ℚ) (B1 B2 : ℕ) (hB : B1 ≤ B2) :
    (dpFill cus ps B1).best = (dpFill cus ps B2).best.take (B1 + 1) := by
  refine dpFillAux_best_take B1 B2 hB cus ps 0 (dpInit B1) (dpInit B2) ?_
  show (List.range (B1 + 1)).map _ = ((List.range (B2 + 1)).map _).take (B1 + 1)
  rw [take_map_range _ (by omega)]

theorem wStar_foldl_ge (best : List ℚ) :
    ∀ (l : List ℕ) (acc : ℕ),
      (∀ w ∈ l, best.getD w (-1) ≤
        best.getD (l.foldl (fun acc w =>
          if best.getD acc (-1) < best.getD w (-1) ∨
            (best.getD acc (-1) = best.getD w (-1) ∧ acc < w) then w else acc) acc) (-1)) ∧
      best.getD acc (-1) ≤
        best.getD (l.foldl (fun acc w =>
          if best.getD acc (-1) < best.getD w (-1) ∨
            (best.getD acc (-1) = best.getD w (-1) ∧ acc < w) then w else acc) acc) (-1) := by
  intro l
  induction l with
  | nil => exact fun acc => ⟨fun w hw => absurd hw (List.not_mem_nil w), le_refl _⟩
  | cons v t ih =>
    intro acc
    simp only [List.foldl_cons]
    by_cases hc : best.getD acc (-1) < best.getD v (-1) ∨
        (best.getD acc (-1) = best.getD v (-1) ∧ acc < v)
    · rw [if_pos hc]
      refine ⟨?_, ?_⟩
      · intro w hw
        rcases List.mem_cons.mp hw with heq | hw2
        · rw [heq]
          exact (ih v).2
        · exact (ih v).1 w hw2
      · rcases hc with hlt | ⟨heq, _⟩
        · exact le_trans (le_of_lt hlt) (ih v).2
        · exact le_trans (le_of_eq heq) (ih v).2
    · rw [if_neg hc]
      push_neg at hc
      refine ⟨?_, (ih acc).2⟩
      intro w hw
      rcases List.mem_cons.mp hw with heq | hw2
      · rw [heq]
        exact le_trans hc.1 (ih acc).2
      · exact (ih acc).1 w hw2

theorem wStar_max (best : List ℚ) (B : ℕ) :
    ∀ w ≤ B, best.getD w (-1) ≤ best.getD (wStar best B) (-1) := by
  intro w hw
  exact (wStar_foldl_ge best (List.range (B + 1)) 0).1 w (List.mem_range.mpr (by omega))

theorem wStar_le (best : List ℚ) (B : ℕ) : wStar best B ≤ B := by
  unfold wStar
  have key : ∀ (l : List ℕ) (acc : ℕ), (∀ w ∈ l, w ≤ B) → acc ≤ B →
      (l.foldl (fun acc w =>
        if best.getD acc (-1) < best.getD w (-1) ∨
          (best.getD acc (-1) = best.getD w (-1) ∧ acc < w) then w else acc) acc) ≤ B := by
    intro l
    induction l with
    | nil => exact fun acc _ h => h
    | cons v t ih =>
      intro acc hl hacc
      simp only [List.foldl_cons]
      by_cases hc : best.getD acc (-1) < best.getD v (-1) ∨
          (best.getD acc (-1) = best.getD v (-1) ∧ acc < v)
      · rw [if_pos hc]
        exact ih v (fun w hw => hl w (List.mem_cons_of_mem _ hw)) (hl v (List.mem_cons_self v t))
      · rw [if_neg hc]
        exact ih acc (fun w hw => hl w (List.mem_cons_of_mem _ hw)) hacc
  exact key (List.range (B + 1)) 0
    (fun w hw => by have := List.mem_range.mp hw; omega) (by omega)

theorem roundHalfEven_le_floor_add_one (q : ℚ) : roundHalfEven q ≤ ⌊q⌋ + 1 := by
  unfold roundHalfEven
  split_ifs <;> omega

theorem floor_le_roundHalfEven (q : ℚ) : ⌊q⌋ ≤ roundHalfEven q := by
  unfold roundHalfEven
  split_ifs <;> omega

theorem roundHalfEven_mono {q r : ℚ} (h : q ≤ r) : roundHalfEven q ≤ roundHalfEven r := by
  have hff : ⌊q⌋ ≤ ⌊r⌋ := Int.floor_le_floor h
  rcases lt_or_eq_of_le hff with hlt | heq
  · calc roundHalfEven q ≤ ⌊q⌋ + 1 := roundHalfEven_le_floor_add_one q
      _ ≤ ⌊r⌋ := by omega
      _ ≤ roundHalfEven r := floor_le_roundHalfEven r
  · unfold roundHalfEven
    rw [← heq]
    have hd : q - ⌊q⌋ ≤ r - ⌊q⌋ := by
      have : (⌊q⌋ : ℚ) = ⌊r⌋ := by exact_mod_cast congrArg (fun z : ℤ => (z : ℚ)) heq
      linarith
    by_cases h1 : q - ⌊q⌋ < 1 / 2
    · rw [if_pos h1]
      split_ifs <;> omega
    · rw [if_neg h1]
      by_cases h2 : (1 : ℚ) / 2 < q - ⌊q⌋
      · rw [if_pos h2]
        have hr2 : (1 : ℚ) / 2 < r - ⌊q⌋ := lt_of_lt_of_le h2 hd
        rw [if_neg (by linarith), if_pos hr2]
      · rw [if_neg h2]
        have hq2 : q - ⌊q⌋ = 1 / 2 := le_antisymm (not_lt.mp h2) (not_lt.mp h1)
        by_cases hr1 : r - ⌊q⌋ < 1 / 2
        · exact absurd (lt_of_le_of_lt hd hr1) (by rw [hq2]; exact lt_irrefl _)
        · rw [if_neg hr1]
          by_cases hr2 : (1 : ℚ) / 2 < r - ⌊q⌋
          · rw [if_pos hr2]
            split_ifs <;> omega
          · rw [if_neg hr2]

theorem budgetUnits_mono (b1 b2 : ℚ) (step : ℕ) (h : b1 ≤ b2) :
    budgetUnits b1 step ≤ budgetUnits b2 step := by
  unfold budgetUnits budgetCents
  refine Nat.div_le_div_right (Int.toNat_le_toNat (roundHalfEven_mono ?_))
  exact mul_le_mul_of_nonneg_right h (by norm_num)

/-- C5 amended: for a fixed option list and a fixed granularity step, the
DP-phase maximum `best[w*]` computed by `_dp_for_step` before the greedy
residual fill is non-decreasing in the budget.  (The end-to-end
`knapsack_dp_auto` profit is not monotone — see `C5_counterexample` — since
raising the budget admits new options through the pruner, shifts the DP
selection and can starve the quantization-blind greedy fill.) -/
theorem C5_amended (actions : List Act) (b1 b2 : ℚ) (step : ℕ) (h : b1 ≤ b2) :
    (dpBestTable actions b1 step).getD
        (wStar (dpBestTable actions b1 step) (budgetUnits b1 step)) (-1) ≤
      (dpBestTable actions b2 step).getD
        (wStar (dpBestTable actions b2 step) (budgetUnits b2 step)) (-1) := by
  have hB : budgetUnits b1 step ≤ budgetUnits b2 step := budgetUnits_mono _ _ _ h
  have htake : dpBestTable actions b1 step =
      (dpBestTable actions b2 step).take (budgetUnits b1 step + 1) :=
    dpFill_best_take _ _ _ _ hB
  rw [htake,
    getD_take _ (-1) (by
      have := wStar_le ((dpBestTable actions b2 step).take (budgetUnits b1 step + 1))
        (budgetUnits b1 step)
      omega)]
  refine wStar_max _ (budgetUnits b2 step) _ ?_
  have := wStar_le ((dpBestTable actions b2 step).take (budgetUnits b1 step + 1))
    (budgetUnits b1 step)
  omega

unseal Rat.add Rat.mul Rat.inv Rat.sub in
/-- Witness for `C5_amended` with one option, budgets 0.5 and 1, step 100. -/
theorem C5_amended_witness :
    ((1 : ℚ) / 2 ≤ 1) ∧
    (dpBestTable [("X", 1, 2)] (1/2) 100).getD
        (wStar (dpBestTable [("X", 1, 2)] (1/2) 100) (budgetUnits (1/2) 100)) (-1) ≤
      (dpBestTable [("X", 1, 2)] 1 100).getD
        (wStar (dpBestTable [("X", 1, 2)] 1 100) (budgetUnits 1 100)) (-1) :=
  ⟨by norm_num, C5_amended [("X", 1, 2)] (1/2) 1 100 (by norm_num)⟩

/-! ## Aggregator membership lemmas -/

theorem stepAgg_same_subset (st : AggState) (a : WRes) :
    ∀ r ∈ (stepAgg st a).same, r ∈ st.same ∨ r = a := by
  intro r hr
  cases hbp : st.bestPC with
  | none =>
    simp only [stepAgg, hbp] at hr
    rcases List.mem_append.mp hr with h | h
    · exact Or.inl h
    · exact Or.inr (by simpa using h)
  | some pc =>
    obtain ⟨bp, bc⟩ := pc
    simp only [stepAgg, hbp] at hr
    split_ifs at hr
    · rcases List.mem_append.mp hr with h | h
      · exact Or.inl h
      · exact Or.inr (by simpa using h)
    · exact Or.inr (by simpa using hr)
    · exact Or.inl hr

theorem aggState_foldl_same_subset :
    ∀ (L : List WRes) (st : AggState),
      ∀ r ∈ (L.foldl stepAgg st).same, r ∈ st.same ∨ r ∈ L := by
  intro L
  induction L with
  | nil => exact fun st r hr => Or.inl hr
  | cons a t ih =>
    intro st r hr
    rcases ih (stepAgg st a) r hr with h | h
    · rcases stepAgg_same_subset st a r h with h2 | h2
      · exact Or.inl h2
      · exact Or.inr (h2 ▸ List.mem_cons_self a t)
    · exact Or.inr (List.mem_cons_of_mem _ h)

theorem minByStep_mem (h : WRes) (t : List WRes) : minByStep h t ∈ h :: t := by
  induction t generalizing h with
  | nil => exact List.mem_cons_self h []
  | cons r t' ih =>
    show minByStep (if r.step < h.step then r else h) t' ∈ h :: r :: t'
    have := ih (if r.step < h.step then r else h)
    rcases List.mem_cons.mp this with heq | hmem
    · rw [heq]
      split_ifs
      · exact List.mem_cons_of_mem _ (List.mem_cons_self r t')
      · exact List.mem_cons_self h _
    · exact List.mem_cons_of_mem _ (List.mem_cons_of_mem _ hmem)

theorem aggregate_cases (L : List WRes) :
    aggregate L = emptySol ∨
      ∃ r ∈ L, aggregate L = ⟨r.chosen, r.cost, r.profit, r.step⟩ := by
  unfold aggregate
  cases hsame : (aggState L).same with
  | nil => exact Or.inl rfl
  | cons h t =>
    right
    have hmem : minByStep h t ∈ (aggState L).same := by
      rw [hsame]
      exact minByStep_mem h t
    have hL : minByStep h t ∈ L := by
      rcases aggState_foldl_same_subset L ⟨none, []⟩ (minByStep h t) hmem with h2 | h2
      · exact absurd h2 (List.not_mem_nil _)
      · exact h2
    exact ⟨minByStep h t, hL, rfl⟩

theorem dp_for_step_step_eq {actions : List Act} {budget : ℚ} {step : ℕ} {r : WRes}
    (h : dp_for_step actions budget step = some r) : r.step = step := by
  simp only [dp_for_step] at h
  split_ifs at h
  all_goals
    injection h with h'
    exact (congrArg WRes.step h').symm

/-! ## C9 -/

/-- C9 amended: whenever the pruned option list is nonempty, the returned
meta step belongs to the explored granularities, no matter which workers
time out (the fallback `MIN_STEP_CENTS` is itself the always-accepted first
candidate); when the pruned option list is empty, nothing is explored and
the step defaults to `MIN_STEP_CENTS`. -/
theorem C9_amended (actions : List Act) (budget : ℚ) (tm : ℕ → Bool) :
    (prune_exact actions budget ≠ [] →
      (knapsack_dp_auto_with tm actions budget).step ∈ exploredSteps actions budget) ∧
    (prune_exact actions budget = [] →
      exploredSteps actions budget = [] ∧
      (knapsack_dp_auto_with tm actions budget).step = MIN_STEP_CENTS) := by
  constructor
  · intro h
    unfold knapsack_dp_auto_with exploredSteps
    rw [if_neg h, if_neg h]
    rcases aggregate_cases (((uniqueSteps (costsCents (prune_exact actions budget))).filter
        (fun s => !tm s)).filterMap
        (fun s => dp_for_step (prune_exact actions budget) budget s)) with hemp | ⟨r, hr, heq⟩
    · rw [hemp]
      exact stepLo_mem_uniqueSteps (costsCents (prune_exact actions budget))
    · rw [heq]
      obtain ⟨s, hs, hsr⟩ := List.mem_filterMap.mp hr
      show r.step ∈ _
      rw [dp_for_step_step_eq hsr]
      exact List.mem_of_mem_filter hs
  · intro h
    unfold knapsack_dp_auto_with exploredSteps
    rw [if_pos h, if_pos h]
    exact ⟨rfl, rfl⟩

unseal Rat.add Rat.mul Rat.inv Rat.sub in
/-- Witness for `C9_amended` on a one-option list within budget. -/
theorem C9_amended_witness :
    prune_exact [("X", 1, 1)] 2 ≠ [] ∧
    (knapsack_dp_auto_with (fun _ => false) [("X", 1, 1)] 2).step ∈
      exploredSteps [("X", 1, 1)] 2 :=
  ⟨by decide, (C9_amended [("X", 1, 1)] 2 (fun _ => false)).1 (by decide)⟩

unseal Rat.add Rat.mul Rat.inv Rat.sub in
/-- Witness for `C10_enumeration`, instantiating the skip-characterization
at candidate 101 over cent costs `[100, 99]` and the nonemptiness clause. -/
theorem C10_witness :
    ((101 : ℕ) ∈ stepCandidates) ∧
    ((101 : ℕ) ∉ uniqueSteps [100, 99] ↔
      ∃ u ∈ uniqueSteps [100, 99], u < 101 ∧ qmap [100, 99] u = qmap [100, 99] 101) ∧
    uniqueSteps (costsCents (prune_exact [("X", 1, 1)] 2)) ≠ [] :=
  ⟨mem_stepCandidates.mpr (by decide),
   (C10_enumeration [100, 99] [("X", 1, 1)] 2).2.2.1 101 (mem_stepCandidates.mpr (by decide)),
   (C10_enumeration [100, 99] [("X", 1, 1)] 2).2.2.2 (by decide)⟩

/-! ## C1: budget compliance under cent-exact inputs -/

theorem dedupeInsert_mem {acc : List (ℕ × Act)} {k : ℕ} {a : Act} :
    ∀ p ∈ dedupeInsert acc k a, p ∈ acc ∨ p.2 = a := by
  induction acc with
  | nil =>
    intro p hp
    simp only [dedupeInsert, List.mem_singleton] at hp
    exact Or.inr (by rw [hp])
  | cons q t ih =>
    intro p hp
    simp only [dedupeInsert] at hp
    split_ifs at hp with h1 h2
    · rcases List.mem_cons.mp hp with rfl | h
      · exact Or.inr rfl
      · exact Or.inl (List.mem_cons_of_mem _ h)
    · rcases List.mem_cons.mp hp with rfl | h
      · exact Or.inl (List.mem_cons_self _ _)
      · exact Or.inl (List.mem_cons_of_mem _ h)
    · rcases List.mem_cons.mp hp with rfl | h
      · exact Or.inl (List.mem_cons_self _ _)
      · rcases ih p h with h2 | h2
        · exact Or.inl (List.mem_cons_of_mem _ h2)
        · exact Or.inr h2

theorem dedupe_foldl_mem :
    ∀ (l : List Act) (acc : List (ℕ × Act)),
      ∀ p ∈ l.foldl (fun acc a => dedupeInsert acc (toCents a.2.1) a) acc,
        p ∈ acc ∨ p.2 ∈ l := by
  intro l
  induction l with
  | nil => exact fun acc p hp => Or.inl hp
  | cons a t ih =>
    intro acc p hp
    rcases ih (dedupeInsert acc (toCents a.2.1) a) p hp with h | h
    · rcases dedupeInsert_mem p h with h2 | h2
      · exact Or.inl h2
      · exact Or.inr (h2 ▸ List.mem_cons_self a t)
    · exact Or.inr (List.mem_cons_of_mem _ h)

theorem mem_prune_exact {actions : List Act} {budget : ℚ} :
    ∀ x ∈ prune_exact actions budget, x ∈ actions := by
  intro x hx
  unfold prune_exact dedupe_same_cost_keep_best_rate at hx
  rw [List.mem_map] at hx
  obtain ⟨p, hp, rfl⟩ := hx
  rcases dedupe_foldl_mem (prune_over_budget actions budget) [] p hp with h | h
  · exact absurd h (List.not_mem_nil _)
  · exact List.mem_of_mem_filter h

theorem roundHalfEven_intCast (n : ℤ) : roundHalfEven (n : ℚ) = n := by
  unfold roundHalfEven
  rw [Int.floor_intCast, if_pos (by rw [sub_self]; norm_num)]

theorem toCents_eq {c : ℚ} (hden : (c * 100).den = 1) (hpos : 0 ≤ c) :
    (toCents c : ℚ) = c * 100 := by
  have hq : ((c * 100).num : ℚ) = c * 100 := (Rat.den_eq_one_iff _).mp hden
  have hround : roundHalfEven (c * 100) = (c * 100).num := by
    conv_lhs => rw [← hq]
    exact roundHalfEven_intCast _
  have hnum : 0 ≤ (c * 100).num := Rat.num_nonneg.mpr (by positivity)
  unfold toCents
  rw [hround]
  have h2 : (((c * 100).num.toNat : ℤ) : ℚ) = c * 100 := by
    rw [Int.toNat_of_nonneg hnum]
    exact hq
  exact_mod_cast h2

theorem getD_mem {α : Type _} {l : List α} {n : ℕ} (d : α) (h : n < l.length) :
    l.getD n d ∈ l := by
  rw [List.getD_eq_getElem?_getD, List.getElem?_eq_getElem h]
  exact List.getElem_mem h

theorem getD_map {α β : Type _} (f : α → β) (l : List α) (n : ℕ) (d : α) :
    (l.map f).getD n (f d) = f (l.getD n d) := by
  rw [List.getD_eq_getElem?_getD, List.getD_eq_getElem?_getD, List.getElem?_map]
  cases l[n]? <;> rfl

theorem quantCost_zero {s : ℕ} (hs : 1 ≤ s) : quantCost 0 s = 0 := by
  unfold quantCost
  exact Nat.div_eq_of_lt (by omega)

theorem le_mul_quantCost (c s : ℕ) (hs : 1 ≤ s) : c ≤ s * quantCost c s := by
  unfold quantCost
  have h := Nat.lt_mul_div_succ (c + s - 1) (show 0 < s by omega)
  rw [Nat.mul_add, Nat.mul_one] at h
  omega

theorem toCents_zero : toCents 0 = 0 := by
  unfold toCents roundHalfEven
  norm_num

theorem dpRound_parent_getD (B idx cu : ℕ) (p : ℚ) (st : DPState) {w : ℕ} (h : w ≤ B) :
    (dpRound B idx cu p st).parent.getD w none =
      parentCell cu p st.best st.parent idx w :=
  getD_map_range _ _ (by omega)

theorem dpRound_parent_length (B idx cu : ℕ) (p : ℚ) (st : DPState) :
    (dpRound B idx cu p st).parent.length = B + 1 := by
  simp [dpRound]

theorem dpFillAux_parent_inv (B : ℕ) (cusAll : List ℕ) :
    ∀ (cusSeg : List ℕ) (ps : List ℚ) (idx : ℕ) (st : DPState),
      (∀ k, k < cusSeg.length → cusSeg.getD k 0 = cusAll.getD (idx + k) 0) →
      (∀ w pw i, st.parent.getD w none = some (pw, i) →
        pw + cusAll.getD i 0 = w ∧ w ≤ B) →
      ∀ w pw i, (dpFillAux B idx cusSeg ps st).parent.getD w none = some (pw, i) →
        pw + cusAll.getD i 0 = w ∧ w ≤ B := by
  intro cusSeg
  induction cusSeg with
  | nil => exact fun ps idx st _ hinv => hinv
  | cons cu rest ih =>
    intro ps idx st hlink hinv
    match ps with
    | [] => exact hinv
    | p :: ps' =>
      have hcu : cu = cusAll.getD idx 0 := by
        have := hlink 0 (by simp)
        simpa using this
      refine ih ps' (idx + 1) (dpRound B idx cu p st) ?_ ?_
      · intro k hk
        have := hlink (k + 1) (by simpa using hk)
        simpa [Nat.add_assoc, Nat.add_comm 1 k] using this
      · intro w pw i hw
        by_cases hwB : w ≤ B
        · rw [dpRound_parent_getD B idx cu p st hwB] at hw
          unfold parentCell at hw
          split_ifs at hw with h1 h2
          · obtain ⟨rfl, rfl⟩ : pw = w - cu ∧ i = idx := by
              injection hw with hw'
              injection hw' with ha hb
              exact ⟨ha.symm, hb.symm⟩
            exact ⟨by rw [← hcu]; omega, hwB⟩
          · exact hinv w pw i hw
          · exact hinv w pw i hw
        · rw [List.getD_eq_default _ _
            (by rw [dpRound_parent_length]; omega)] at hw
          exact absurd hw (by simp)

theorem dpInit_parent_getD (B w : ℕ) : (dpInit B).parent.getD w none = none := by
  show (List.replicate (B + 1) none).getD w none = none
  rw [List.getD_eq_getElem?_getD, List.getElem?_replicate]
  split_ifs <;> rfl

theorem dpFill_parent_inv (cus : List ℕ) (ps : List ℚ) (B : ℕ) :
    ∀ w pw i, (dpFill cus ps B).parent.getD w none = some (pw, i) →
      pw + cus.getD i 0 = w ∧ w ≤ B := by
  refine dpFillAux_parent_inv B cus cus ps 0 (dpInit B) (fun k _ => by rw [Nat.zero_add]) ?_
  intro w pw i hw
  rw [dpInit_parent_getD] at hw
  exact absurd hw (by simp)

theorem reconAux_dedup_sum (par : List (Option (ℕ × ℕ))) (f : ℕ → ℕ)
    (hinv : ∀ w' pw i, par.getD w' none = some (pw, i) → pw + f i = w') :
    ∀ (fuel w : ℕ), (((reconAux par fuel w).dedup.map f).sum ≤ w) := by
  intro fuel
  induction fuel with
  | zero => intro w; show ((([] : List ℕ).dedup.map f).sum ≤ w); simp
  | succ fuel ih =>
    intro w
    match w with
    | 0 => show ((([] : List ℕ).dedup.map f).sum ≤ 0); simp
    | w' + 1 =>
      show (((match par.getD (w' + 1) none with
        | none => []
        | some (pw, i) => if pw ≤ w' then i :: reconAux par fuel pw else []).dedup.map f).sum
          ≤ w' + 1)
      cases hp : par.getD (w' + 1) none with
      | none => simp
      | some pi =>
        obtain ⟨pw, i⟩ := pi
        obtain ⟨hsum, _⟩ : pw + f i = w' + 1 ∧ True := ⟨(hinv _ _ _ hp), trivial⟩
        show (((if pw ≤ w' then i :: reconAux par fuel pw else []).dedup.map f).sum ≤ w' + 1)
        by_cases hle : pw ≤ w'
        · rw [if_pos hle]
          by_cases hmem : i ∈ reconAux par fuel pw
          · rw [List.dedup_cons_of_mem hmem]
            exact le_trans (ih pw) (by omega)
          · rw [List.dedup_cons_of_not_mem hmem, List.map_cons, List.sum_cons]
            have := ih pw
            omega
        · rw [if_neg hle]
          simp

theorem nodup_subset_sum_le {l1 l2 : List ℕ} (f : ℕ → ℕ) (h1 : l1.Nodup) (h2 : l2.Nodup)
    (hsub : ∀ x ∈ l1, x ∈ l2) : (l1.map f).sum ≤ (l2.map f).sum := by
  rw [← List.sum_toFinset f h1, ← List.sum_toFinset f h2]
  refine Finset.sum_le_sum_of_subset fun x hx => ?_
  exact List.mem_toFinset.mpr (hsub x (List.mem_toFinset.mp hx))

theorem greedy_foldl_cost_le (budget : ℚ) :
    ∀ (l : List (ℕ × Act)) (st : GreedyState), st.cost ≤ budget + eps →
      (l.foldl (greedyStep budget) st).cost ≤ budget + eps := by
  intro l
  induction l with
  | nil => exact fun st h => h
  | cons x t ih =>
    intro st h
    simp only [List.foldl_cons]
    refine ih _ ?_
    unfold greedyStep
    by_cases hstop : st.stopped = true
    · rw [if_pos hstop]
      exact h
    · rw [if_neg hstop]
      show (if x.2.2.1 ≤ budget - st.cost + eps then
          ({ chosen := st.chosen ++ [x.2], cost := st.cost + x.2.2.1,
             profit := st.profit + x.2.2.1 * x.2.2.2,
             stopped := decide (budget - (st.cost + x.2.2.1) ≤ eps) } : GreedyState)
        else st).cost ≤ budget + eps
      by_cases hc : x.2.2.1 ≤ budget - st.cost + eps
      · rw [if_pos hc]
        show st.cost + x.2.2.1 ≤ budget + eps
        linarith
      · rw [if_neg hc]
        exact h

theorem dp_chosen_cost_le (actions : List Act) (budget : ℚ) (step : ℕ)
    (hpos : ∀ a ∈ actions, 0 ≤ a.2.1)
    (hcents : ∀ a ∈ actions, (a.2.1 * 100).den = 1)
    (hbud : (budget * 100).den = 1) (hb : 0 ≤ budget) (hstep : 1 ≤ step) :
    ((((List.range actions.length).filter (fun i =>
        i ∈ reconstruct (dpFill (workerCus actions step) (workerProfits actions)
          (budgetUnits budget step)).parent
          (wStar (dpFill (workerCus actions step) (workerProfits actions)
            (budgetUnits budget step)).best (budgetUnits budget step)))).map
      (fun i => actions.getD i ("", 0, 0))).map (fun a => a.2.1)).sum ≤ budget := by
  set B := budgetUnits budget step with hBdef
  set st := dpFill (workerCus actions step) (workerProfits actions) B with hstdef
  set w := wStar st.best B with hwdef
  set chain := reconstruct st.parent w with hchaindef
  set S := (List.range actions.length).filter (fun i => i ∈ chain) with hSdef
  have hinv := dpFill_parent_inv (workerCus actions step) (workerProfits actions) B
  have hchain : ((chain.dedup.map (fun i => (workerCus actions step).getD i 0)).sum ≤ w) :=
    reconAux_dedup_sum st.parent _ (fun w' pw i h => (hinv w' pw i h).1) w w
  have hwB : w ≤ B := wStar_le _ _
  have hSsub : ∀ x ∈ S, x ∈ chain.dedup := by
    intro x hx
    refine List.mem_dedup.mpr ?_
    have := (List.mem_filter.mp hx).2
    simpa using this
  have hSnodup : S.Nodup := (List.nodup_range _).filter _
  have hsum_cu : (S.map (fun i => (workerCus actions step).getD i 0)).sum ≤ w :=
    le_trans (nodup_subset_sum_le _ hSnodup (List.nodup_dedup _) hSsub) hchain
  have hc_cu : ∀ i, (costsCents actions).getD i 0 ≤ step * (workerCus actions step).getD i 0 := by
    intro i
    by_cases hi : i < (costsCents actions).length
    · have hmap : (workerCus actions step).getD i 0 =
          quantCost ((costsCents actions).getD i 0) step := by
        unfold workerCus
        have h := getD_map (fun c => quantCost c step) (costsCents actions) i 0
        rw [quantCost_zero hstep] at h
        exact h
      rw [hmap]
      exact le_mul_quantCost _ step hstep
    · rw [List.getD_eq_default _ _ (by omega)]
      omega
  have hsum_cents : (S.map (fun i => (costsCents actions).getD i 0)).sum ≤ step * w := by
    calc (S.map (fun i => (costsCents actions).getD i 0)).sum
        ≤ (S.map (fun i => step * (workerCus actions step).getD i 0)).sum :=
          List.sum_le_sum (fun i _ => hc_cu i)
      _ = step * (S.map (fun i => (workerCus actions step).getD i 0)).sum :=
          List.sum_map_mul_left _ _ _
      _ ≤ step * w := Nat.mul_le_mul_left step hsum_cu
  have hBstep : step * B ≤ budgetCents budget := by
    rw [hBdef]
    unfold budgetUnits
    rw [Nat.mul_comm]
    exact Nat.div_mul_le_self _ _
  have hcents_total : (S.map (fun i => (costsCents actions).getD i 0)).sum ≤ budgetCents budget :=
    le_trans hsum_cents (le_trans (Nat.mul_le_mul_left step hwB) hBstep)
  have hQ : ((S.map (fun i => actions.getD i ("", 0, 0))).map (fun a => a.2.1)).sum * 100
      = ((S.map (fun i => (costsCents actions).getD i 0)).sum : ℚ) := by
    rw [List.map_map, Nat.cast_list_sum, List.map_map, ← List.sum_map_mul_right]
    refine congrArg List.sum (List.map_congr_left ?_)
    intro i hiS
    have hi : i < actions.length := List.mem_range.mp (List.mem_filter.mp hiS).1
    have hmem : actions.getD i ("", 0, 0) ∈ actions := getD_mem _ hi
    have hcent_i : (costsCents actions).getD i 0 = toCents (actions.getD i ("", 0, 0)).2.1 := by
      unfold costsCents
      have h := getD_map (fun a : Act => toCents a.2.1) actions i ("", 0, 0)
      rw [show toCents (("", (0 : ℚ), (0 : ℚ)) : Act).2.1 = 0 from toCents_zero] at h
      exact h
    show ((fun a : Act => a.2.1) ∘ fun i => actions.getD i ("", 0, 0)) i * 100 =
      ((Nat.cast : ℕ → ℚ) ∘ fun i => (costsCents actions).getD i 0) i
    show (actions.getD i ("", 0, 0)).2.1 * 100 = ((costsCents actions).getD i 0 : ℚ)
    rw [hcent_i, toCents_eq (hcents _ hmem) (hpos _ hmem)]
  have hbc : (budgetCents budget : ℚ) = budget * 100 := toCents_eq hbud hb
  have hfinal : ((S.map (fun i => actions.getD i ("", 0, 0))).map (fun a => a.2.1)).sum * 100
      ≤ budget * 100 := by
    rw [hQ, ← hbc]
    exact_mod_cast hcents_total
  linarith

theorem eps_pos : (0 : ℚ) < eps := by norm_num [eps]

theorem dp_for_step_cost_le {actions : List Act} {budget : ℚ} {step : ℕ} {r : WRes}
    (hpos : ∀ a ∈ actions, 0 ≤ a.2.1)
    (hcents : ∀ a ∈ actions, (a.2.1 * 100).den = 1)
    (hbud : (budget * 100).den = 1) (hb : 0 ≤ budget) (hstep : 1 ≤ step)
    (h : dp_for_step actions budget step = some r) : r.cost ≤ budget + eps := by
  have hcost0 := dp_chosen_cost_le actions budget step hpos hcents hbud hb hstep
  simp only [dp_for_step] at h
  split_ifs at h
  · injection h with h'
    rw [← h']
    refine greedy_foldl_cost_le budget _ _ ?_
    exact le_trans hcost0 (show budget ≤ budget + eps by linarith [eps_pos])
  · injection h with h'
    rw [← h']
    exact le_trans hcost0 (show budget ≤ budget + eps by linarith [eps_pos])

/-- C1 amended: for options with positive cost and rate and a positive
budget, provided every option's cost and the budget are whole numbers of
cents (`cost * 100` and `budget * 100` are integers, the values the cent
rounding preserves exactly), the returned Solution satisfies
`total_cost ≤ budget + 1e-9`, whichever workers time out.  (Without the
whole-cent proviso the bound fails by whole fractions of a cent — see
`C1_counterexample`.) -/
theorem C1_amended (actions : List Act) (budget : ℚ) (tm : ℕ → Bool)
    (hpos : ∀ a ∈ actions, 0 < a.2.1 ∧ 0 < a.2.2)
    (hcents : ∀ a ∈ actions, (a.2.1 * 100).den = 1)
    (hbud : (budget * 100).den = 1) (hb : 0 < budget) :
    (knapsack_dp_auto_with tm actions budget).cost ≤ budget + eps := by
  unfold knapsack_dp_auto_with
  split_ifs with hp
  · show (0 : ℚ) ≤ budget + eps
    linarith [eps_pos]
  · rcases aggregate_cases (((uniqueSteps (costsCents (prune_exact actions budget))).filter
        (fun s => !tm s)).filterMap
        (fun s => dp_for_step (prune_exact actions budget) budget s)) with hemp | ⟨r, hr, heq⟩
    · rw [hemp]
      show (0 : ℚ) ≤ budget + eps
      linarith [eps_pos]
    · rw [heq]
      show r.cost ≤ budget + eps
      obtain ⟨s, hs, hsr⟩ := List.mem_filterMap.mp hr
      have hstep : 1 ≤ s := by
        have h1 := (mem_stepCandidates.mp
          (mem_uniqueSteps.mp (List.mem_of_mem_filter hs)).1).1
        have h2 : (1 : ℕ) ≤ stepLo := by decide
        omega
      exact dp_for_step_cost_le
        (fun a ha => le_of_lt (hpos a (mem_prune_exact a ha)).1)
        (fun a ha => hcents a (mem_prune_exact a ha))
        hbud (le_of_lt hb) hstep hsr

unseal Rat.add Rat.mul Rat.inv Rat.sub in
/-- Witness for `C1_amended` on a cent-exact one-option instance. -/
theorem C1_amended_witness :
    (knapsack_dp_auto_with (fun _ => false) [("X", 1, 1)] 2).cost ≤ 2 + eps :=
  C1_amended [("X", 1, 1)] 2 (fun _ => false)
    (by intro a ha; rw [List.mem_singleton] at ha; rw [ha]; exact ⟨by norm_num, by norm_num⟩)
    (by intro a ha; rw [List.mem_singleton] at ha; rw [ha]; decide)
    (by decide) (by norm_num)

/-! ## C3 and C4: the aggregation fold under exact ties -/

theorem isclose_self (a : ℚ) : isclose a a = true := by
  unfold isclose
  rw [decide_eq_true_eq, sub_self, abs_zero]
  positivity

theorem aggState_append (M : List WRes) (a : WRes) :
    aggState (M ++ [a]) = stepAgg (aggState M) a := by
  unfold aggState
  rw [List.foldl_append]
  rfl

theorem stepAgg_some {st : AggState} {bp bc : ℚ} (h : st.bestPC = some (bp, bc)) (a : WRes) :
    stepAgg st a =
      if isclose a.profit bp && isclose a.cost bc then ⟨some (bp, bc), st.same ++ [a]⟩
      else if bp < a.profit ∨ (isclose a.profit bp ∧ bc < a.cost) then
        ⟨some (a.profit, a.cost), [a]⟩
      else st := by
  unfold stepAgg
  rw [h]

theorem aggState_char (L : List WRes)
    (hp : ∀ r ∈ L, ∀ r' ∈ L, isclose r.profit r'.profit = true → r.profit = r'.profit)
    (hc : ∀ r ∈ L, ∀ r' ∈ L, isclose r.cost r'.cost = true → r.cost = r'.cost) :
    L = [] ∨
    ∃ bp bc, (aggState L).bestPC = some (bp, bc) ∧
      (∃ rb ∈ L, rb.profit = bp ∧ rb.cost = bc) ∧
      (∀ r ∈ L, r.profit < bp ∨ (r.profit = bp ∧ r.cost ≤ bc)) ∧
      (aggState L).same = L.filter (fun r => decide (r.profit = bp ∧ r.cost = bc)) := by
  induction L using List.reverseRecOn with
  | nil => exact Or.inl rfl
  | append_singleton M a ih =>
    right
    have hpM : ∀ r ∈ M, ∀ r' ∈ M, isclose r.profit r'.profit = true → r.profit = r'.profit :=
      fun r hr r' hr' => hp r (List.mem_append_left _ hr) r' (List.mem_append_left _ hr')
    have hcM : ∀ r ∈ M, ∀ r' ∈ M, isclose r.cost r'.cost = true → r.cost = r'.cost :=
      fun r hr r' hr' => hc r (List.mem_append_left _ hr) r' (List.mem_append_left _ hr')
    have hamem : a ∈ M ++ [a] := List.mem_append_right _ (List.mem_singleton.mpr rfl)
    rcases ih hpM hcM with hMnil | ⟨bp, bc, hbest, ⟨rb, hrb, hrbp, hrbc⟩, hbound, hsame⟩
    · subst hMnil
      refine ⟨a.profit, a.cost, rfl, ⟨a, hamem, rfl, rfl⟩, ?_, ?_⟩
      · intro r hr
        obtain rfl : r = a := by simpa using hr
        exact Or.inr ⟨rfl, le_refl _⟩
      · have hfil : ([] ++ [a]).filter
            (fun r => decide (r.profit = a.profit ∧ r.cost = a.cost)) = [a] := by
          simp
        rw [hfil]
        rfl
    · have hmemM : ∀ r ∈ M, r ∈ M ++ [a] := fun r hr => List.mem_append_left _ hr
      have hagg := aggState_append M a
      by_cases htie : (isclose a.profit bp && isclose a.cost bc) = true
      · obtain ⟨hip, hic⟩ := Bool.and_eq_true_iff.mp htie
        have hap : a.profit = bp := by
          have h := hp a hamem rb (hmemM rb hrb)
          rw [hrbp] at h
          exact h hip
        have hac : a.cost = bc := by
          have h := hc a hamem rb (hmemM rb hrb)
          rw [hrbc] at h
          exact h hic
        refine ⟨bp, bc, ?_, ⟨rb, hmemM rb hrb, hrbp, hrbc⟩, ?_, ?_⟩
        · rw [hagg, stepAgg_some hbest, if_pos htie]
        · intro r hr
          rcases List.mem_append.mp hr with hrM | hra
          · exact hbound r hrM
          · obtain rfl : r = a := by simpa using hra
            exact Or.inr ⟨hap, le_of_eq hac⟩
        · rw [hagg, stepAgg_some hbest, if_pos htie]
          show (aggState M).same ++ [a] = _
          rw [hsame, List.filter_append]
          have hfa : ([a]).filter (fun r => decide (r.profit = bp ∧ r.cost = bc)) = [a] := by
            simp [hap, hac]
          rw [hfa]
      · by_cases hrep : bp < a.profit ∨ (isclose a.profit bp ∧ bc < a.cost)
        · have hlex : bp < a.profit ∨ (bp = a.profit ∧ bc < a.cost) := by
            rcases hrep with h | ⟨hip, hlt⟩
            · exact Or.inl h
            · have h := hp a hamem rb (hmemM rb hrb)
              rw [hrbp] at h
              exact Or.inr ⟨(h hip).symm, hlt⟩
          refine ⟨a.profit, a.cost, ?_, ⟨a, hamem, rfl, rfl⟩, ?_, ?_⟩
          · rw [hagg, stepAgg_some hbest, if_neg htie, if_pos hrep]
          · intro r hr
            rcases List.mem_append.mp hr with hrM | hra
            · rcases hbound r hrM with hb1 | ⟨hb1, hb2⟩ <;> rcases hlex with hl1 | ⟨hl1, hl2⟩
              · exact Or.inl (lt_trans hb1 hl1)
              · exact Or.inl (by rw [← hl1]; exact hb1)
              · exact Or.inl (lt_of_le_of_lt (le_of_eq hb1) hl1)
              · exact Or.inr ⟨hb1.trans hl1, le_trans hb2 (le_of_lt hl2)⟩
            · obtain rfl : r = a := by simpa using hra
              exact Or.inr ⟨rfl, le_refl _⟩
          · rw [hagg, stepAgg_some hbest, if_neg htie, if_pos hrep]
            show [a] = _
            rw [List.filter_append]
            have hMf : M.filter (fun r => decide (r.profit = a.profit ∧ r.cost = a.cost)) = [] := by
              rw [List.filter_eq_nil_iff]
              intro r hrM hpred
              rw [decide_eq_true_eq] at hpred
              obtain ⟨h1, h2⟩ := hpred
              rcases hbound r hrM with hb1 | ⟨hb1, hb2⟩ <;> rcases hlex with hl1 | ⟨hl1, hl2⟩ <;>
                linarith
            rw [hMf]
            simp
        · have hple : a.profit ≤ bp := by
            rcases le_or_lt a.profit bp with h | h
            · exact h
            · exact absurd (Or.inl h) hrep
          have habound : a.profit < bp ∨ (a.profit = bp ∧ a.cost ≤ bc) := by
            rcases eq_or_lt_of_le hple with heq | hlt2
            · right
              refine ⟨heq, ?_⟩
              have hip : isclose a.profit bp = true := by
                rw [heq]
                exact isclose_self bp
              by_contra hgt
              push_neg at hgt
              exact hrep (Or.inr ⟨hip, hgt⟩)
            · exact Or.inl hlt2
          have hpred_a : ¬(a.profit = bp ∧ a.cost = bc) := by
            rintro ⟨h1, h2⟩
            apply htie
            rw [Bool.and_eq_true_iff]
            refine ⟨by rw [h1]; exact isclose_self bp, by rw [h2]; exact isclose_self bc⟩
          refine ⟨bp, bc, ?_, ⟨rb, hmemM rb hrb, hrbp, hrbc⟩, ?_, ?_⟩
          · rw [hagg, stepAgg_some hbest, if_neg htie, if_neg hrep]
            exact hbest
          · intro r hr
            rcases List.mem_append.mp hr with hrM | hra
            · exact hbound r hrM
            · obtain rfl : r = a := by simpa using hra
              exact habound
          · rw [hagg, stepAgg_some hbest, if_neg htie, if_neg hrep, hsame,
              List.filter_append]
            have hfa : ([a]).filter (fun r => decide (r.profit = bp ∧ r.cost = bc)) = [] := by
              simp only [List.filter_cons, List.filter_nil, decide_eq_true_eq]
              rw [if_neg hpred_a]
            rw [hfa, List.append_nil]

theorem minByStep_le (h : WRes) (t : List WRes) :
    ∀ r ∈ h :: t, (minByStep h t).step ≤ r.step := by
  induction t generalizing h with
  | nil =>
    intro r hr
    obtain rfl : r = h := by simpa using hr
    exact le_refl _
  | cons s t' ih =>
    intro r hr
    have hunf : minByStep h (s :: t') = minByStep (if s.step < h.step then s else h) t' := rfl
    have hmin_le : (minByStep (if s.step < h.step then s else h) t').step ≤
        (if s.step < h.step then s else h).step :=
      ih (if s.step < h.step then s else h) _ (List.mem_cons_self _ _)
    rcases List.mem_cons.mp hr with rfl | hr'
    · rw [hunf]
      refine le_trans hmin_le ?_
      by_cases hcnd : s.step < r.step
      · rw [if_pos hcnd]
        exact le_of_lt hcnd
      · rw [if_neg hcnd]
    · rcases List.mem_cons.mp hr' with rfl | hr''
      · rw [hunf]
        refine le_trans hmin_le ?_
        by_cases hcnd : r.step < h.step
        · rw [if_pos hcnd]
        · rw [if_neg hcnd]
          exact le_of_not_lt hcnd
      · rw [hunf]
        exact ih (if s.step < h.step then s else h) r (List.mem_cons_of_mem _ hr'')

theorem aggregate_min_tied (L : List WRes) (hL : L ≠ [])
    (hp : ∀ r ∈ L, ∀ r' ∈ L, isclose r.profit r'.profit = true → r.profit = r'.profit)
    (hc : ∀ r ∈ L, ∀ r' ∈ L, isclose r.cost r'.cost = true → r.cost = r'.cost) :
    ∃ bp bc, (aggState L).bestPC = some (bp, bc) ∧
      (∀ r ∈ L, r.profit < bp ∨ (r.profit = bp ∧ r.cost ≤ bc)) ∧
      ∃ m ∈ L, m.profit = bp ∧ m.cost = bc ∧
        (∀ r ∈ L, r.profit = bp → r.cost = bc → m.step ≤ r.step) ∧
        aggregate L = ⟨m.chosen, m.cost, m.profit, m.step⟩ := by
  rcases aggState_char L hp hc with hnil | ⟨bp, bc, hbest, ⟨rb, hrbmem, hrbp, hrbc⟩, hbound, hsame⟩
  · exact absurd hnil hL
  refine ⟨bp, bc, hbest, hbound, ?_⟩
  have hrbfil : rb ∈ L.filter (fun r => decide (r.profit = bp ∧ r.cost = bc)) :=
    List.mem_filter.mpr ⟨hrbmem, by rw [decide_eq_true_eq]; exact ⟨hrbp, hrbc⟩⟩
  cases hfil : L.filter (fun r => decide (r.profit = bp ∧ r.cost = bc)) with
  | nil =>
    rw [hfil] at hrbfil
    exact absurd hrbfil (List.not_mem_nil rb)
  | cons h t =>
    have hsame' : (aggState L).same = h :: t := by rw [hsame, hfil]
    have hmmem := minByStep_mem h t
    have hmfil : minByStep h t ∈ L.filter (fun r => decide (r.profit = bp ∧ r.cost = bc)) := by
      rw [hfil]
      exact hmmem
    obtain ⟨hmL, hmpred⟩ := List.mem_filter.mp hmfil
    rw [decide_eq_true_eq] at hmpred
    refine ⟨minByStep h t, hmL, hmpred.1, hmpred.2, ?_, ?_⟩
    · intro r hrL hrp hrc
      have hrtied : r ∈ h :: t := by
        rw [← hfil]
        exact List.mem_filter.mpr ⟨hrL, by rw [decide_eq_true_eq]; exact ⟨hrp, hrc⟩⟩
      exact minByStep_le h t r hrtied
    · unfold aggregate
      rw [hsame']

/-- C4: the Result Aggregator's winner-selection fold is invariant under the
arrival order of the completed worker results, provided any two results whose
profits (resp. costs) are within the `isclose` tolerance are exactly equal in
profit (resp. cost), and distinct results carry distinct steps. -/
theorem C4_amended (L L' : List WRes) (hperm : L.Perm L')
    (hp : ∀ r ∈ L, ∀ r' ∈ L, isclose r.profit r'.profit = true → r.profit = r'.profit)
    (hc : ∀ r ∈ L, ∀ r' ∈ L, isclose r.cost r'.cost = true → r.cost = r'.cost)
    (hs : ∀ r ∈ L, ∀ r' ∈ L, r.step = r'.step → r = r') :
    aggregate L = aggregate L' := by
  by_cases hnil : L = []
  · subst hnil
    rw [hperm.symm.eq_nil]
  · have hnil' : L' ≠ [] := fun h => hnil (by rw [h] at hperm; exact hperm.eq_nil)
    have hp' : ∀ r ∈ L', ∀ r' ∈ L', isclose r.profit r'.profit = true → r.profit = r'.profit :=
      fun r hr r' hr' => hp r (hperm.mem_iff.mpr hr) r' (hperm.mem_iff.mpr hr')
    have hc' : ∀ r ∈ L', ∀ r' ∈ L', isclose r.cost r'.cost = true → r.cost = r'.cost :=
      fun r hr r' hr' => hc r (hperm.mem_iff.mpr hr) r' (hperm.mem_iff.mpr hr')
    obtain ⟨bp, bc, hbest, hbound, m, hmL, hmp, hmc, hmin, hout⟩ :=
      aggregate_min_tied L hnil hp hc
    obtain ⟨bp', bc', hbest', hbound', m', hmL', hmp', hmc', hmin', hout'⟩ :=
      aggregate_min_tied L' hnil' hp' hc'
    have h1 : m.profit < bp' ∨ (m.profit = bp' ∧ m.cost ≤ bc') :=
      hbound' m (hperm.mem_iff.mp hmL)
    have h2 : m'.profit < bp ∨ (m'.profit = bp ∧ m'.cost ≤ bc) :=
      hbound m' (hperm.mem_iff.mpr hmL')
    rw [hmp, hmc] at h1
    rw [hmp', hmc'] at h2
    have hbpeq : bp = bp' := by
      rcases h1 with h | ⟨h, _⟩ <;> rcases h2 with h2a | ⟨h2a, _⟩ <;> linarith
    have hbceq : bc = bc' := by
      rcases h1 with h | ⟨_, hle1⟩ <;> rcases h2 with h2a | ⟨_, hle2⟩ <;> linarith
    have hm'L : m' ∈ L := hperm.mem_iff.mpr hmL'
    have hstep1 : m.step ≤ m'.step :=
      hmin m' hm'L (hmp'.trans hbpeq.symm) (hmc'.trans hbceq.symm)
    have hstep2 : m'.step ≤ m.step :=
      hmin' m (hperm.mem_iff.mp hmL) (hmp.trans hbpeq) (hmc.trans hbceq)
    have hmeq : m = m' := hs m hmL m' hm'L (le_antisymm hstep1 hstep2)
    rw [hout, hout', hmeq]

/-- C3: among the worker results tied with the best `(total_profit, total_cost)`,
the Aggregator returns the one with the smallest granularity step (and the
returned record carries that step), provided any two results whose profits
(resp. costs) are within the `isclose` tolerance are exactly equal in profit
(resp. cost), and distinct results carry distinct steps. -/
theorem C3_amended (L : List WRes) (hL : L ≠ [])
    (hp : ∀ r ∈ L, ∀ r' ∈ L, isclose r.profit r'.profit = true → r.profit = r'.profit)
    (hc : ∀ r ∈ L, ∀ r' ∈ L, isclose r.cost r'.cost = true → r.cost = r'.cost)
    (_hs : ∀ r ∈ L, ∀ r' ∈ L, r.step = r'.step → r = r') :
    ∃ m ∈ tiedWithBest L, aggregate L = ⟨m.chosen, m.cost, m.profit, m.step⟩ ∧
      ∀ r ∈ tiedWithBest L, m.step ≤ r.step := by
  obtain ⟨bp, bc, hbest, hbound, m, hmL, hmp, hmc, hmin, hout⟩ :=
    aggregate_min_tied L hL hp hc
  have htied : tiedWithBest L =
      L.filter (fun r => isclose r.profit bp && isclose r.cost bc) := by
    unfold tiedWithBest
    rw [hbest]
  have hmem_tied : ∀ r, r ∈ tiedWithBest L ↔ r ∈ L ∧ r.profit = bp ∧ r.cost = bc := by
    intro r
    rw [htied]
    constructor
    · intro hr
      obtain ⟨hrL, hrpred⟩ := List.mem_filter.mp hr
      obtain ⟨hip, hic⟩ := Bool.and_eq_true_iff.mp hrpred
      have h1 := hp r hrL m hmL
      rw [hmp] at h1
      have h2 := hc r hrL m hmL
      rw [hmc] at h2
      exact ⟨hrL, h1 hip, h2 hic⟩
    · rintro ⟨hrL, hrp, hrc⟩
      refine List.mem_filter.mpr ⟨hrL, ?_⟩
      rw [Bool.and_eq_true_iff]
      exact ⟨by rw [hrp]; exact isclose_self bp, by rw [hrc]; exact isclose_self bc⟩
  refine ⟨m, (hmem_tied m).mpr ⟨hmL, hmp, hmc⟩, hout, ?_⟩
  intro r hr
  obtain ⟨hrL, hrp, hrc⟩ := (hmem_tied r).mp hr
  exact hmin r hrL hrp hrc

unseal Rat.add Rat.mul Rat.inv Rat.sub in
/-- Witness for `C4_amended`: two exact results arriving in either order. -/
theorem C4_amended_witness :
    aggregate [⟨[], 1, 1, 100⟩, ⟨[], 2, 3, 150⟩] =
      aggregate [⟨[], 2, 3, 150⟩, ⟨[], 1, 1, 100⟩] :=
  C4_amended [⟨[], 1, 1, 100⟩, ⟨[], 2, 3, 150⟩] [⟨[], 2, 3, 150⟩, ⟨[], 1, 1, 100⟩]
    (List.Perm.swap _ _ _) (by decide) (by decide) (by decide)

unseal Rat.add Rat.mul Rat.inv Rat.sub in
/-- Witness for `C3_amended`: two exactly tied results with steps 150 and 100. -/
theorem C3_amended_witness :
    ([⟨[], 1, 1, 150⟩, ⟨[], 1, 1, 100⟩] : List WRes) ≠ [] ∧
    ∃ m ∈ tiedWithBest [⟨[], 1, 1, 150⟩, ⟨[], 1, 1, 100⟩],
      aggregate [⟨[], 1, 1, 150⟩, ⟨[], 1, 1, 100⟩] = ⟨m.chosen, m.cost, m.profit, m.step⟩ ∧
        ∀ r ∈ tiedWithBest [⟨[], 1, 1, 150⟩, ⟨[], 1, 1, 100⟩], m.step ≤ r.step :=
  ⟨by decide, C3_amended [⟨[], 1, 1, 150⟩, ⟨[], 1, 1, 100⟩]
    (by decide) (by decide) (by decide) (by decide)⟩
